import Mathlib

/-!
# Verification of the SDN controller core (`src/main.py`)

A shallow embedding of the `SDNController` class: topology store
(nodes, links with bandwidth / utilization / availability), path
computation (`compute_paths`, backed by a breadth-first predecessor
search plus shortest-path enumeration, mirroring the graph library's
`predecessor` and `_build_paths_from_predecessors`), and flow
admission (`inject_flow`), plus a small-step operational layer for
sequences of controller operations.

Machine integers are modelled as `Int` (Python integers are unbounded);
node identifiers are `String`.  Exceptional control flow is modelled
with `Except`: the `NodeNotFound` exception escaping `compute_paths`
(the `except` clause in the source only catches `NetworkXNoPath`) is
the `.error` case.
-/

namespace SDN

/-- Attributes stored on a link by `add_link`: the keyword arguments
`bandwidth=…, utilization=…, available=…` of `add_edge`. -/
structure LinkData where
  bandwidth : Int
  utilization : Int
  available : Bool
deriving DecidableEq, Repr

/-- One undirected edge of the `networkx` graph: the stored endpoint
pair (in first-insertion orientation) and its attribute record. -/
structure Edge where
  n1 : String
  n2 : String
  data : LinkData
deriving DecidableEq, Repr

/-- A flow-table action record `{"action": "forward", "path": p}`. -/
structure Action where
  action : String
  path : List String
deriving DecidableEq, Repr

/-- One element of `self.active_flows`. -/
structure FlowRecord where
  id : String
  src : String
  dst : String
  primary_path : List String
  backup_path : Option (List String)
  bandwidth : Int
  priority : Int
deriving DecidableEq, Repr

/-- The mutable state of an `SDNController` object.
`nodes` is the node attribute dictionary in insertion order (the
attribute value is `type`, which is absent — `none` — for nodes
auto-created by `add_edge`); `edges` is the edge set in insertion
order; `flow_tables` is the flattened `{switch: {flow: action}}`
mapping keyed by `(switch, flow_id)`. -/
structure SDNController where
  nodes : List (String × Option String)
  edges : List Edge
  flow_tables : List ((String × String) × Action)
  active_flows : List FlowRecord
deriving DecidableEq, Repr

/-- `SDNController.__init__`: empty topology, tables and flow list. -/
def initController : SDNController := ⟨[], [], [], []⟩

/-- First-match association-list lookup (Python dict access). -/
def alookup {κ α : Type} [DecidableEq κ] : List (κ × α) → κ → Option α
  | [], _ => none
  | (k, v) :: rest, key => if k = key then some v else alookup rest key

/-- Does this stored edge connect the unordered pair `{a, b}`? -/
def edgeMatches (e : Edge) (a b : String) : Bool :=
  (e.n1 = a ∧ e.n2 = b : Prop) ∨ (e.n1 = b ∧ e.n2 = a : Prop)

/-- `self.topology[a][b]` as an `Option`. -/
def findEdge : List Edge → String → String → Option Edge
  | [], _, _ => none
  | e :: rest, a, b => if edgeMatches e a b then some e else findEdge rest a b

/-- `networkx` `add_edge` node auto-creation: if the endpoint is not a
node yet, append it with an empty attribute dictionary (no `type`). -/
def ensureNode (ns : List (String × Option String)) (id : String) :
    List (String × Option String) :=
  if (ns.map Prod.fst).contains id then ns else ns ++ [(id, none)]

/-- Upsert a node with an explicit `type` attribute (`add_node`):
existing nodes keep their dictionary position, the attribute is
overwritten. -/
def upsertNode : List (String × Option String) → String → String →
    List (String × Option String)
  | [], id, ty => [(id, some ty)]
  | (k, t) :: rest, id, ty =>
    if k = id then (k, some ty) :: rest else (k, t) :: upsertNode rest id ty

/-- Upsert an edge's attribute record, keeping its position and stored
orientation when the unordered pair already exists (`add_edge` on an
existing edge updates its attribute dictionary in place). -/
def setEdge : List Edge → String → String → LinkData → List Edge
  | [], a, b, d => [⟨a, b, d⟩]
  | e :: rest, a, b, d =>
    if edgeMatches e a b then ⟨e.n1, e.n2, d⟩ :: rest
    else e :: setEdge rest a b d

/-- Set the `available` attribute of the edge `{a, b}` if it exists;
otherwise leave the edge list unchanged (the `has_edge` guard). -/
def setAvailable : List Edge → String → String → Bool → List Edge
  | [], _, _, _ => []
  | e :: rest, a, b, v =>
    if edgeMatches e a b then ⟨e.n1, e.n2, ⟨e.data.bandwidth, e.data.utilization, v⟩⟩ :: rest
    else e :: setAvailable rest a b v

/-- `add_node(node_id, node_type='switch')`. -/
def add_node (st : SDNController) (node_id node_type : String) : SDNController :=
  { st with nodes := upsertNode st.nodes node_id node_type }

/-- `add_link(node1, node2, bandwidth=100)`: `add_edge` auto-creates
missing endpoints (without a `type` attribute) and overwrites the
link's attributes with `bandwidth`, `utilization=0`, `available=True`. -/
def add_link (st : SDNController) (node1 node2 : String) (bandwidth : Int) :
    SDNController :=
  { st with
    nodes := ensureNode (ensureNode st.nodes node1) node2
    edges := setEdge st.edges node1 node2 ⟨bandwidth, 0, true⟩ }

/-- `remove_link`: mark the link failed if it exists. -/
def remove_link (st : SDNController) (node1 node2 : String) : SDNController :=
  { st with edges := setAvailable st.edges node1 node2 false }

/-- `restore_link`: mark the link available if it exists. -/
def restore_link (st : SDNController) (node1 node2 : String) : SDNController :=
  { st with edges := setAvailable st.edges node1 node2 true }

/-! ## The live subgraph

`compute_paths` filters the edges on `available` and takes the
edge-induced subgraph: its nodes are exactly the endpoints of
available edges, and adjacency (in the graph library's dictionary
order, i.e. edge-insertion order per node) is restricted to those
edges. -/

/-- The `available_edges` list comprehension. -/
def liveEdges (st : SDNController) : List Edge :=
  st.edges.filter (fun e => e.data.available)

/-- Neighbours of `u` in the live subgraph, in adjacency order. -/
def liveNeighbors (st : SDNController) (u : String) : List String :=
  (liveEdges st).filterMap (fun e =>
    if e.n1 = u then some e.n2 else if e.n2 = u then some e.n1 else none)

/-- All endpoints of available edges (the node set of the
edge-induced subgraph, with repetitions). -/
def liveNodeList (st : SDNController) : List String :=
  (liveEdges st).flatMap (fun e => [e.n1, e.n2])

/-- Membership of `u` in the live subgraph. -/
def inLive (st : SDNController) (u : String) : Bool :=
  (liveEdges st).any (fun e => e.n1 = u ∨ e.n2 = u)

/-- `{a, b}` is an available link of the topology. -/
def isAvailLink (st : SDNController) (a b : String) : Bool :=
  (liveEdges st).any (fun e => edgeMatches e a b)

/-! ## Breadth-first predecessor search

Mirrors the graph library's `predecessor(G, source)`:

```
level = 0; nextlevel = [source]
seen = {source: 0}; pred = {source: []}
while nextlevel:
    level += 1; thislevel = nextlevel; nextlevel = []
    for v in thislevel:
        for w in G[v]:
            if w not in seen:
                pred[w] = [v]; seen[w] = level; nextlevel.append(w)
            elif seen[w] == level:
                pred[w].append(v)
```
-/

/-- Working state of the search: the `seen` and `pred` dictionaries
(insertion-ordered association lists) and the `nextlevel` list being
accumulated. -/
structure BfsSt where
  seen : List (String × Nat)
  pred : List (String × List String)
  nextlevel : List String
deriving Repr

/-- `pred[w].append(v)` (the key is present whenever this runs). -/
def appendPred : List (String × List String) → String → String →
    List (String × List String)
  | [], _, _ => []
  | (k, vs) :: rest, w, v =>
    if k = w then (k, vs ++ [v]) :: rest else (k, vs) :: appendPred rest w v

/-- The body of the inner `for w in G[v]` loop at BFS level `lvl`. -/
def visitNeighbor (lvl : Nat) (v : String) (s : BfsSt) (w : String) : BfsSt :=
  match alookup s.seen w with
  | none => ⟨s.seen ++ [(w, lvl)], s.pred ++ [(w, [v])], s.nextlevel ++ [w]⟩
  | some l => if l = lvl then ⟨s.seen, appendPred s.pred w v, s.nextlevel⟩ else s

/-- Process one node `v` of `thislevel`: iterate over its adjacency. -/
def visitNode (adj : String → List String) (lvl : Nat) (s : BfsSt) (v : String) :
    BfsSt :=
  (adj v).foldl (visitNeighbor lvl v) s

/-- One iteration of the `while nextlevel` loop, at level `lvl`. -/
def bfsRound (adj : String → List String) (lvl : Nat) (thislevel : List String)
    (s : BfsSt) : BfsSt :=
  thislevel.foldl (visitNode adj lvl) s

/-- The `while` loop, fuelled (the fuel is chosen large enough that the
loop always reaches its natural exit, see `bfsLoop_total`). -/
def bfsLoop (adj : String → List String) :
    Nat → Nat → List String → List (String × Nat) → List (String × List String) →
    List (String × Nat) × List (String × List String)
  | 0, _, _, seen, pred => (seen, pred)
  | fuel + 1, lvl, nextlevel, seen, pred =>
    if nextlevel = [] then (seen, pred)
    else
      let s := bfsRound adj (lvl + 1) nextlevel ⟨seen, pred, []⟩
      bfsLoop adj fuel (lvl + 1) s.nextlevel s.seen s.pred

/-- `nx.predecessor(G, source)` (plus the `seen` levels), run with the
given fuel. -/
def predecessorMap (adj : String → List String) (source : String) (fuel : Nat) :
    List (String × Nat) × List (String × List String) :=
  bfsLoop adj fuel 0 [source] [(source, 0)] [(source, [])]

/-! ## Shortest-path enumeration

`_build_paths_from_predecessors({source}, target, pred)` enumerates,
in depth-first order over the predecessor lists, all paths from
`source` to `target`; the recursion below yields exactly the
generator's order (the generator's `seen` set never suppresses a
branch because predecessor chains strictly decrease in BFS level). -/

/-- All paths from `source` to `node` through `pred`, in enumeration
order. -/
def buildPaths (pred : List (String × List String)) (source : String) :
    Nat → String → List (List String)
  | 0, _ => []
  | fuel + 1, node =>
    (if node = source then [[node]] else []) ++
      ((alookup pred node).getD []).flatMap (fun p =>
        (buildPaths pred source fuel p).map (fun q => q ++ [node]))

/-- Python's `min(xs, key=f)`: the first element attaining the minimal
key (`none` on the empty list, where Python raises `ValueError`). -/
def pyMinBy {α : Type} (f : α → Int) : List α → Option α
  | [] => none
  | x :: xs => some (xs.foldl (fun best y => if f y < f best then y else best) x)

/-- The consecutive pairs `(path[i], path[i+1])` of a path. -/
def consecPairs : List String → List (String × String)
  | a :: b :: rest => (a, b) :: consecPairs (b :: rest)
  | _ => []

/-- `self.topology[u][v]['utilization']` (the edge always exists at
the call sites; a missing edge would raise `KeyError`, modelled as 0). -/
def edgeUtil (st : SDNController) (a b : String) : Int :=
  match findEdge st.edges a b with
  | some e => e.data.utilization
  | none => 0

/-- `_path_utilization(path)`: total utilization along a path. -/
def path_utilization (st : SDNController) (path : List String) : Int :=
  (consecPairs path).foldl (fun total uv => total + edgeUtil st uv.1 uv.2) 0

/-- The fuel used for both the BFS loop and the path enumeration. -/
def bfsFuel (st : SDNController) : Nat := (liveNodeList st).length + 1

/-- The list produced by `list(nx.all_shortest_paths(subgraph, src, dst))`
when it does not raise. -/
def allShortestPathsList (st : SDNController) (src dst : String) :
    List (List String) :=
  buildPaths (predecessorMap (liveNeighbors st) src (bfsFuel st)).2 src
    (bfsFuel st) dst

/-- `compute_paths(src, dst, priority)`.

`.error ()` is the `NodeNotFound` exception raised by the predecessor
search when `src` is not a node of the live subgraph — the source's
`except` clause only catches `NetworkXNoPath`, so this exception
escapes.  `NetworkXNoPath` (target absent from `pred`) is caught and
yields `.ok []`. -/
def compute_paths (st : SDNController) (src dst : String) (priority : Int) :
    Except Unit (List (List String)) :=
  if inLive st src then
    match alookup (predecessorMap (liveNeighbors st) src (bfsFuel st)).2 dst with
    | none => .ok []
    | some _ =>
      if priority > 0 then
        match pyMinBy (path_utilization st) (allShortestPathsList st src dst) with
        | some m => .ok [m]
        | none => .ok []
      else
        .ok ((allShortestPathsList st src dst).take 2)
  else .error ()

/-! ## Flow admission -/

/-- `install_flow(switch_id, flow, action)`:
`self.flow_tables[switch_id][flow] = action` (an upsert). -/
def install_flow : List ((String × String) × Action) → String → String → Action →
    List ((String × String) × Action)
  | [], switch_id, flow, action => [((switch_id, flow), action)]
  | (k, a) :: rest, switch_id, flow, action =>
    if k = (switch_id, flow) then (k, action) :: rest
    else (k, a) :: install_flow rest switch_id flow action

/-- `path[1:-1]`: the interior switches of a path. -/
def interior (path : List String) : List String := (path.drop 1).dropLast

/-- One `self.topology[u][v]['utilization'] += bandwidth` update. -/
def bumpUtil : List Edge → String → String → Int → List Edge
  | [], _, _, _ => []
  | e :: rest, a, b, bw =>
    if edgeMatches e a b then
      ⟨e.n1, e.n2, ⟨e.data.bandwidth, e.data.utilization + bw, e.data.available⟩⟩ :: rest
    else e :: bumpUtil rest a b bw

/-- The utilization-update loop of `inject_flow` over a path. -/
def addUtilOnPath (es : List Edge) (path : List String) (bw : Int) : List Edge :=
  (consecPairs path).foldl (fun es uv => bumpUtil es uv.1 uv.2 bw) es

/-- The flow-rule installation loop of `inject_flow` over one path. -/
def installOnPath (ft : List ((String × String) × Action)) (fid : String)
    (path : List String) : List ((String × String) × Action) :=
  (interior path).foldl
    (fun ft switch => install_flow ft switch fid ⟨"forward", path⟩) ft

/-- The f-string `f"{src}-{dst}-{len(self.active_flows)}"`. -/
def mkFlowId (src dst : String) (n : Nat) : String :=
  src ++ "-" ++ dst ++ "-" ++ Nat.repr n

/-- `inject_flow(src, dst, priority=0, bandwidth=10)`.

Returns `.error ()` when `compute_paths` raises (uncaught
`NodeNotFound`); `.ok (none, st)` models the `print` + `return None`
branch when no path is available (no mutation); otherwise
`.ok (some flow_id, st')`. -/
def inject_flow (st : SDNController) (src dst : String) (priority bandwidth : Int) :
    Except Unit (Option String × SDNController) :=
  match compute_paths st src dst priority with
  | .error e => .error e
  | .ok [] => .ok (none, st)
  | .ok (primary_path :: rest) =>
    let backup_path : Option (List String) :=
      if priority > 1 then rest.head? else none
    let edges' := addUtilOnPath st.edges primary_path bandwidth
    let flow_id := mkFlowId src dst st.active_flows.length
    let ft1 := installOnPath st.flow_tables flow_id primary_path
    let ft2 := match backup_path with
      | some bp => installOnPath ft1 flow_id bp
      | none => ft1
    let record : FlowRecord :=
      ⟨flow_id, src, dst, primary_path, backup_path, bandwidth, priority⟩
    .ok (some flow_id,
      { st with
        edges := edges'
        flow_tables := ft2
        active_flows := st.active_flows ++ [record] })

/-! ## Operation traces -/

/-- One public controller operation. -/
inductive Op : Type
  | addNode (id ty : String)
  | addLink (a b : String) (bw : Int)
  | removeLink (a b : String)
  | restoreLink (a b : String)
  | injectFlow (src dst : String) (priority bandwidth : Int)
deriving DecidableEq, Repr

/-- The state after one operation (an escaping exception leaves the
controller object as it was, since `inject_flow` mutates nothing
before path computation). -/
def applyOp (st : SDNController) : Op → SDNController
  | .addNode id ty => add_node st id ty
  | .addLink a b bw => add_link st a b bw
  | .removeLink a b => remove_link st a b
  | .restoreLink a b => restore_link st a b
  | .injectFlow src dst p bw =>
    match inject_flow st src dst p bw with
    | .ok (_, st') => st'
    | .error _ => st

/-- The controller state after a sequence of operations from a fresh
controller. -/
def runOps (ops : List Op) : SDNController :=
  ops.foldl applyOp initController

/-! ## Specification-side notions: paths of the live subgraph -/

/-- `p` is a walk of the adjacency structure `adj` (consecutive
elements adjacent; the empty list is not a walk). -/
def isChain (adj : String → List String) : List String → Bool
  | [] => false
  | [_] => true
  | a :: b :: rest => decide (b ∈ adj a) && isChain adj (b :: rest)

/-- `p` is a path of the live subgraph from `src` to `dst`. -/
def livePath (st : SDNController) (src dst : String) (p : List String) : Prop :=
  p.head? = some src ∧ p.getLast? = some dst ∧
    isChain (liveNeighbors st) p = true ∧ ∀ x ∈ p, inLive st x = true

instance livePath_decidable (st : SDNController) (src dst : String) (p : List String) :
    Decidable (livePath st src dst p) := by
  unfold livePath
  infer_instance

/-! ## Association-list lemmas -/

theorem alookup_append {κ α : Type} [DecidableEq κ] (l₁ l₂ : List (κ × α)) (k : κ) :
    alookup (l₁ ++ l₂) k =
      match alookup l₁ k with
      | some v => some v
      | none => alookup l₂ k := by
  induction l₁ with
  | nil => simp [alookup]
  | cons hd tl ih =>
    obtain ⟨hk, hv⟩ := hd
    by_cases h : hk = k <;> simp [alookup, h, ih]

theorem alookup_eq_none {κ α : Type} [DecidableEq κ] (l : List (κ × α)) (k : κ)
    (h : k ∉ l.map Prod.fst) : alookup l k = none := by
  induction l with
  | nil => rfl
  | cons hd tl ih =>
    simp only [List.map_cons, List.mem_cons, not_or] at h
    simp [alookup, Ne.symm h.1, ih h.2]

theorem alookup_mem {κ α : Type} [DecidableEq κ] {l : List (κ × α)} {k : κ} {v : α}
    (h : alookup l k = some v) : (k, v) ∈ l := by
  induction l with
  | nil => simp [alookup] at h
  | cons hd tl ih =>
    obtain ⟨hk, hv⟩ := hd
    by_cases hkk : hk = k
    · subst hkk
      simp [alookup] at h
      simp [h]
    · simp [alookup, hkk] at h
      exact List.mem_cons_of_mem _ (ih h)

theorem alookup_isSome_of_mem {κ α : Type} [DecidableEq κ] {l : List (κ × α)}
    {k : κ} {v : α} (h : (k, v) ∈ l) : (alookup l k).isSome := by
  induction l with
  | nil => simp at h
  | cons hd tl ih =>
    obtain ⟨hk, hv⟩ := hd
    rcases List.mem_cons.1 h with h1 | h2
    · cases h1
      simp [alookup]
    · by_cases hkk : hk = k <;> simp [alookup, hkk, ih h2]

/-! ## Consecutive-pair and chain lemmas -/

theorem consecPairs_cons (a b : String) (rest : List String) :
    consecPairs (a :: b :: rest) = (a, b) :: consecPairs (b :: rest) := rfl

theorem isChain_consecPairs {adj : String → List String} :
    ∀ {p : List String}, isChain adj p = true →
      ∀ uv ∈ consecPairs p, uv.2 ∈ adj uv.1
  | [], h => by simp [isChain] at h
  | [_], _ => by simp [consecPairs]
  | a :: b :: rest, h => by
    simp only [isChain, Bool.and_eq_true, decide_eq_true_eq] at h
    intro uv huv
    rcases List.mem_cons.1 huv with h1 | h2
    · subst h1; exact h.1
    · exact isChain_consecPairs h.2 uv h2

theorem isChain_cons_of_mem {adj : String → List String} {a b : String}
    {rest : List String} (hadj : b ∈ adj a) (h : isChain adj (b :: rest) = true) :
    isChain adj (a :: b :: rest) = true := by
  simp [isChain, hadj, h]

/-- Appending one adjacent node to the end of a chain. -/
theorem isChain_snoc {adj : String → List String} :
    ∀ {p : List String} {v w : String}, isChain adj p = true →
      p.getLast? = some v → w ∈ adj v → isChain adj (p ++ [w]) = true
  | [], _, _, h, _, _ => by simp [isChain] at h
  | [a], v, w, _, hl, hw => by
    simp only [List.getLast?_singleton, Option.some_inj] at hl
    subst hl
    simp [isChain, hw]
  | a :: b :: rest, v, w, h, hl, hw => by
    simp only [isChain, Bool.and_eq_true, decide_eq_true_eq] at h
    have hl' : (b :: rest).getLast? = some v := by
      rw [List.getLast?_cons_cons] at hl
      exact hl
    have := isChain_snoc h.2 hl' hw
    simpa [isChain, h.1] using this

/-- Gluing a chain ending at `x` with a chain starting at `x`. -/
theorem isChain_glue {adj : String → List String} :
    ∀ {q : List String} {x : String} {rest : List String},
      isChain adj q = true → q.getLast? = some x →
      isChain adj (x :: rest) = true → isChain adj (q ++ rest) = true
  | [], _, _, h, _, _ => by simp [isChain] at h
  | [a], x, rest, _, hl, hr => by
    simp only [List.getLast?_singleton, Option.some_inj] at hl
    subst hl
    simpa using hr
  | a :: b :: q', x, rest, h, hl, hr => by
    simp only [isChain, Bool.and_eq_true, decide_eq_true_eq] at h
    rw [List.getLast?_cons_cons] at hl
    have := isChain_glue h.2 hl hr
    rw [List.cons_append]
    have hbq : (b :: q') ++ rest = b :: (q' ++ rest) := by simp
    rw [hbq] at this
    simpa [isChain, h.1] using this

theorem isChain_take {adj : String → List String} :
    ∀ {p : List String} {n : Nat}, isChain adj p = true → 0 < n →
      isChain adj (p.take n) = true
  | [], _, h, _ => by simp [isChain] at h
  | [a], n, h, hn => by
    cases n with
    | zero => omega
    | succ m => simpa [List.take] using h
  | a :: b :: rest, n, h, hn => by
    cases n with
    | zero => omega
    | succ m =>
      cases m with
      | zero => simp [isChain]
      | succ m' =>
        simp only [isChain, Bool.and_eq_true, decide_eq_true_eq] at h
        have := isChain_take h.2 (show 0 < m' + 1 by omega)
        simpa [List.take, isChain, h.1] using this

theorem isChain_drop {adj : String → List String} :
    ∀ {p : List String} {n : Nat}, isChain adj p = true → n < p.length →
      isChain adj (p.drop n) = true
  | [], n, h, hn => by simp at hn
  | [a], n, h, hn => by
    simp only [List.length_singleton] at hn
    interval_cases n
    simpa using h
  | a :: b :: rest, n, h, hn => by
    cases n with
    | zero => simpa using h
    | succ m =>
      simp only [isChain, Bool.and_eq_true, decide_eq_true_eq] at h
      have := isChain_drop h.2 (show m < (b :: rest).length by
        simp only [List.length_cons] at hn ⊢; omega)
      simpa using this

/-! ## `min(…, key=f)` lemmas -/

theorem pyMinBy_foldl_spec {α : Type} (f : α → Int) :
    ∀ (xs : List α) (x : α),
      (xs.foldl (fun best y => if f y < f best then y else best) x) ∈ x :: xs ∧
      f (xs.foldl (fun best y => if f y < f best then y else best) x) ≤ f x ∧
      ∀ y ∈ xs, f (xs.foldl (fun best y => if f y < f best then y else best) x) ≤ f y
  | [], x => by simp
  | y :: ys, x => by
    simp only [List.foldl_cons]
    by_cases h : f y < f x
    · simp only [if_pos h]
      obtain ⟨hmem, hle, hall⟩ := pyMinBy_foldl_spec f ys y
      refine ⟨?_, ?_, ?_⟩
      · rcases List.mem_cons.1 hmem with h1 | h2
        · simp [h1]
        · simp [List.mem_cons_of_mem, h2]
      · exact (hle.trans_lt h).le
      · intro z hz
        rcases List.mem_cons.1 hz with h1 | h2
        · subst h1; exact hle
        · exact hall z h2
    · simp only [if_neg h]
      obtain ⟨hmem, hle, hall⟩ := pyMinBy_foldl_spec f ys x
      refine ⟨?_, hle, ?_⟩
      · rcases List.mem_cons.1 hmem with h1 | h2
        · simp [h1]
        · simp [List.mem_cons_of_mem, h2]
      · intro z hz
        rcases List.mem_cons.1 hz with h1 | h2
        · subst h1; omega
        · exact hall z h2

theorem pyMinBy_mem {α : Type} {f : α → Int} {l : List α} {m : α}
    (h : pyMinBy f l = some m) : m ∈ l := by
  cases l with
  | nil => simp [pyMinBy] at h
  | cons x xs =>
    simp only [pyMinBy, Option.some_inj] at h
    subst h
    exact (pyMinBy_foldl_spec f xs x).1

theorem pyMinBy_le {α : Type} {f : α → Int} {l : List α} {m : α}
    (h : pyMinBy f l = some m) : ∀ y ∈ l, f m ≤ f y := by
  cases l with
  | nil => simp [pyMinBy] at h
  | cons x xs =>
    simp only [pyMinBy, Option.some_inj] at h
    subst h
    intro y hy
    rcases List.mem_cons.1 hy with h1 | h2
    · subst h1; exact (pyMinBy_foldl_spec f xs y).2.1
    · exact (pyMinBy_foldl_spec f xs x).2.2 y h2

/-- Python `min` returns the first element attaining the minimum. -/
theorem pyMinBy_first {α : Type} (f : α → Int) :
    ∀ (xs : List α) (x : α),
      ∃ l₁ l₂, x :: xs = l₁ ++
          (xs.foldl (fun best y => if f y < f best then y else best) x) :: l₂ ∧
        ∀ y ∈ l₁, f (xs.foldl (fun best y => if f y < f best then y else best) x) < f y
  | [], x => ⟨[], [], by simp⟩
  | y :: ys, x => by
    simp only [List.foldl_cons]
    by_cases h : f y < f x
    · simp only [if_pos h]
      obtain ⟨l₁, l₂, heq, hlt⟩ := pyMinBy_first f ys y
      refine ⟨x :: l₁, l₂, by rw [List.cons_append, ← heq], ?_⟩
      intro z hz
      rcases List.mem_cons.1 hz with rfl | h2
      · exact lt_of_le_of_lt (pyMinBy_foldl_spec f ys y).2.1 h
      · exact hlt z h2
    · simp only [if_neg h]
      obtain ⟨l₁, l₂, heq, hlt⟩ := pyMinBy_first f ys x
      cases l₁ with
      | nil =>
        simp only [List.nil_append] at heq
        injection heq with h1 h2
        refine ⟨[], y :: ys, ?_, by simp⟩
        rw [List.nil_append, ← h1]
      | cons a l₁' =>
        injection heq with h1 h2
        subst h1
        refine ⟨x :: y :: l₁', l₂, by
          rw [List.cons_append, List.cons_append]
          exact congrArg (fun t => x :: y :: t) h2, ?_⟩
        intro z hz
        have hltx : f (ys.foldl (fun best y => if f y < f best then y else best) x) < f x :=
          hlt x (List.mem_cons_self x l₁')
        rcases List.mem_cons.1 hz with rfl | hz'
        · exact hltx
        · rcases List.mem_cons.1 hz' with rfl | h2
          · have hfx : f (ys.foldl (fun best y => if f y < f best then y else best) x) ≤ f x :=
              (pyMinBy_foldl_spec f ys x).2.1
            omega
          · exact hlt z (List.mem_cons_of_mem _ h2)

/-! ## Decimal representation lemmas (for flow identifiers)

Flow identifiers are `"{src}-{dst}-{n}"`.  Uniqueness rests on the
facts that the decimal digits of `n` contain no dash and determine
`n`. -/

theorem toDigitsCore_acc : ∀ (fuel n : Nat) (acc : List Char),
    Nat.toDigitsCore 10 fuel n acc = Nat.toDigitsCore 10 fuel n [] ++ acc
  | 0, _, _ => by simp [Nat.toDigitsCore]
  | fuel + 1, n, acc => by
    simp only [Nat.toDigitsCore]
    by_cases h : n / 10 = 0
    · simp [h]
    · simp only [if_neg h]
      rw [toDigitsCore_acc fuel (n / 10) (Nat.digitChar (n % 10) :: acc),
        toDigitsCore_acc fuel (n / 10) [Nat.digitChar (n % 10)]]
      simp

theorem toDigitsCore_fuel_irrel (n : Nat) : ∀ (f₁ f₂ : Nat) (acc : List Char),
    n < f₁ → n < f₂ →
    Nat.toDigitsCore 10 f₁ n acc = Nat.toDigitsCore 10 f₂ n acc := by
  induction n using Nat.strong_induction_on with
  | _ n ih =>
    intro f₁ f₂ acc h₁ h₂
    match f₁, f₂ with
    | a + 1, b + 1 =>
      simp only [Nat.toDigitsCore]
      by_cases h : n / 10 = 0
      · simp [h]
      · simp only [if_neg h]
        have hd : n / 10 < n := Nat.div_lt_self (by omega) (by omega)
        exact ih (n / 10) hd a b _ (by omega) (by omega)

theorem toDigits_small {n : Nat} (h : n < 10) :
    Nat.toDigits 10 n = [Nat.digitChar n] := by
  have h0 : n / 10 = 0 := Nat.div_eq_of_lt h
  have hm : n % 10 = n := Nat.mod_eq_of_lt h
  simp [Nat.toDigits, Nat.toDigitsCore, h0, hm]

theorem toDigits_big {n : Nat} (h : 10 ≤ n) :
    Nat.toDigits 10 n = Nat.toDigits 10 (n / 10) ++ [Nat.digitChar (n % 10)] := by
  have h10 : 1 ≤ n / 10 := (Nat.one_le_div_iff (by omega)).2 h
  have h0 : n / 10 ≠ 0 := by omega
  have hd : n / 10 < n := Nat.div_lt_self (by omega) (by omega)
  show Nat.toDigitsCore 10 (n + 1) n [] = _
  simp only [Nat.toDigitsCore, if_neg h0]
  rw [toDigitsCore_acc, toDigitsCore_fuel_irrel (n / 10) n (n / 10 + 1) [] hd (by omega)]
  rfl

theorem toDigits_ne_nil (n : Nat) : Nat.toDigits 10 n ≠ [] := by
  by_cases h : n < 10
  · simp [toDigits_small h]
  · simp [toDigits_big (show (10:Nat) ≤ n by omega)]

theorem digitChar_inj : ∀ a < 10, ∀ b < 10, Nat.digitChar a = Nat.digitChar b → a = b := by
  decide

theorem digitChar_ne_dash : ∀ a < 10, Nat.digitChar a ≠ '-' := by decide

theorem toDigits_no_dash (n : Nat) : ∀ c ∈ Nat.toDigits 10 n, c ≠ '-' := by
  induction n using Nat.strong_induction_on with
  | _ n ih =>
    intro c hc
    by_cases h : n < 10
    · rw [toDigits_small h] at hc
      simp only [List.mem_singleton] at hc
      subst hc
      exact digitChar_ne_dash n h
    · rw [toDigits_big (show (10:Nat) ≤ n by omega)] at hc
      rcases List.mem_append.1 hc with h1 | h2
      · exact ih (n / 10) (Nat.div_lt_self (by omega) (by omega)) c h1
      · simp only [List.mem_singleton] at h2
        subst h2
        exact digitChar_ne_dash _ (Nat.mod_lt _ (by omega))

theorem toDigits_inj (m : Nat) : ∀ n : Nat,
    Nat.toDigits 10 m = Nat.toDigits 10 n → m = n := by
  induction m using Nat.strong_induction_on with
  | _ m ih =>
    intro n h
    by_cases hm : m < 10
    · by_cases hn : n < 10
      · rw [toDigits_small hm, toDigits_small hn] at h
        simp only [List.cons.injEq, and_true] at h
        exact digitChar_inj m hm n hn h
      · rw [toDigits_small hm, toDigits_big (show (10:Nat) ≤ n by omega)] at h
        have := congrArg List.length h
        have hne := toDigits_ne_nil (n / 10)
        simp only [List.length_singleton, List.length_append] at this
        cases hq : Nat.toDigits 10 (n / 10) with
        | nil => exact absurd hq hne
        | cons a l => rw [hq] at this; simp at this
    · by_cases hn : n < 10
      · rw [toDigits_big (show (10:Nat) ≤ m by omega), toDigits_small hn] at h
        have := congrArg List.length h
        have hne := toDigits_ne_nil (m / 10)
        simp only [List.length_singleton, List.length_append] at this
        cases hq : Nat.toDigits 10 (m / 10) with
        | nil => exact absurd hq hne
        | cons a l => rw [hq] at this; simp at this
      · rw [toDigits_big (show (10:Nat) ≤ m by omega),
          toDigits_big (show (10:Nat) ≤ n by omega)] at h
        have := List.append_inj' h (by simp)
        obtain ⟨h1, h2⟩ := this
        have hdiv : m / 10 = n / 10 :=
          ih (m / 10) (Nat.div_lt_self (by omega) (by omega)) (n / 10) h1
        simp only [List.cons.injEq, and_true] at h2
        have hmod : m % 10 = n % 10 :=
          digitChar_inj _ (Nat.mod_lt _ (by omega)) _ (Nat.mod_lt _ (by omega)) h2
        omega

theorem repr_data (n : Nat) : (Nat.repr n).data = Nat.toDigits 10 n := rfl

/-- Cutting two dash-separated strings at their final dash: if the
suffixes are dash-free, they agree. -/
theorem dash_suffix_eq : ∀ (a : List Char) {b x y : List Char},
    (∀ c ∈ x, c ≠ '-') → (∀ c ∈ y, c ≠ '-') →
    a ++ '-' :: x = b ++ '-' :: y → x = y
  | [], b, x, y, hx, hy, h => by
    cases b with
    | nil => simpa using h
    | cons c bs =>
      simp only [List.nil_append, List.cons_append, List.cons.injEq] at h
      obtain ⟨h1, h2⟩ := h
      exfalso
      exact hx '-' (by rw [h2]; exact List.mem_append_right _ (List.mem_cons_self _ _)) rfl
  | c :: as, b, x, y, hx, hy, h => by
    cases b with
    | nil =>
      simp only [List.cons_append, List.nil_append, List.cons.injEq] at h
      obtain ⟨h1, h2⟩ := h
      exfalso
      exact hy '-' (by rw [← h2]; exact List.mem_append_right _ (List.mem_cons_self _ _)) rfl
    | cons c' bs =>
      simp only [List.cons_append, List.cons.injEq] at h
      exact dash_suffix_eq as hx hy h.2

theorem mkFlowId_data (s d : String) (n : Nat) :
    (mkFlowId s d n).data =
      (s.data ++ '-' :: d.data) ++ '-' :: Nat.toDigits 10 n := by
  have hdash : ("-" : String).data = ['-'] := rfl
  simp [mkFlowId, String.data_append, repr_data, hdash, List.append_assoc]

/-- The trailing index of a flow identifier is recoverable: two flow
identifiers with different indices differ. -/
theorem mkFlowId_inj_index {s d s' d' : String} {n n' : Nat}
    (h : mkFlowId s d n = mkFlowId s' d' n') : n = n' := by
  have hd := congrArg String.data h
  rw [mkFlowId_data, mkFlowId_data] at hd
  have := dash_suffix_eq _ (toDigits_no_dash n) (toDigits_no_dash n') hd
  exact toDigits_inj n n' this

/-! ## Further association-list lemmas -/

theorem alookup_isSome_iff {κ α : Type} [DecidableEq κ] {l : List (κ × α)} {k : κ} :
    (alookup l k).isSome = true ↔ k ∈ l.map Prod.fst := by
  constructor
  · intro h
    obtain ⟨v, hv⟩ := Option.isSome_iff_exists.1 h
    exact List.mem_map.2 ⟨(k, v), alookup_mem hv, rfl⟩
  · intro h
    obtain ⟨⟨k', v⟩, hmem, hk⟩ := List.mem_map.1 h
    cases hk
    exact alookup_isSome_of_mem hmem

theorem alookup_none_not_mem {κ α : Type} [DecidableEq κ] {l : List (κ × α)} {k : κ}
    (h : alookup l k = none) : k ∉ l.map Prod.fst := by
  intro hmem
  have := alookup_isSome_iff.2 hmem
  rw [h] at this
  simp at this

theorem alookup_append_left {κ α : Type} [DecidableEq κ] {l₁ : List (κ × α)}
    (l₂ : List (κ × α)) {k : κ} {v : α} (h : alookup l₁ k = some v) :
    alookup (l₁ ++ l₂) k = some v := by
  rw [alookup_append, h]

theorem alookup_append_right {κ α : Type} [DecidableEq κ] {l₁ : List (κ × α)}
    (l₂ : List (κ × α)) {k : κ} (h : alookup l₁ k = none) :
    alookup (l₁ ++ l₂) k = alookup l₂ k := by
  rw [alookup_append, h]

theorem appendPred_keys (pred : List (String × List String)) (w v : String) :
    (appendPred pred w v).map Prod.fst = pred.map Prod.fst := by
  induction pred with
  | nil => rfl
  | cons hd tl ih =>
    obtain ⟨k, vs⟩ := hd
    by_cases h : k = w <;> simp [appendPred, h, ih]

theorem appendPred_lookup_self {pred : List (String × List String)} {w : String}
    (v : String) {vs : List String} (h : alookup pred w = some vs) :
    alookup (appendPred pred w v) w = some (vs ++ [v]) := by
  induction pred with
  | nil => simp [alookup] at h
  | cons hd tl ih =>
    obtain ⟨k, vs'⟩ := hd
    by_cases hk : k = w
    · subst hk
      simp [alookup] at h
      simp [appendPred, alookup, h]
    · simp only [alookup, if_neg hk] at h
      simp [appendPred, alookup, hk, ih h]

theorem appendPred_lookup_ne {pred : List (String × List String)} {w w' : String}
    (v : String) (h : w' ≠ w) :
    alookup (appendPred pred w v) w' = alookup pred w' := by
  induction pred with
  | nil => rfl
  | cons hd tl ih =>
    obtain ⟨k, vs⟩ := hd
    by_cases hk : k = w
    · subst hk
      simp [appendPred, alookup, Ne.symm h]
    · by_cases hk' : k = w' <;> simp [appendPred, alookup, hk, hk', h, ih]

/-! ## Step monotonicity of the search -/

/-- One state of the search extends another: `seen` entries, `pred`
list membership and `nextlevel` membership are preserved. -/
def BfsLe (s t : BfsSt) : Prop :=
  (∀ x l, alookup s.seen x = some l → alookup t.seen x = some l) ∧
  (∀ x u, u ∈ (alookup s.pred x).getD [] → u ∈ (alookup t.pred x).getD []) ∧
  (∀ x, x ∈ s.nextlevel → x ∈ t.nextlevel)

theorem BfsLe.refl (s : BfsSt) : BfsLe s s :=
  ⟨fun _ _ h => h, fun _ _ h => h, fun _ h => h⟩

theorem BfsLe.trans {s t u : BfsSt} (h₁ : BfsLe s t) (h₂ : BfsLe t u) : BfsLe s u :=
  ⟨fun x l h => h₂.1 x l (h₁.1 x l h),
   fun x v h => h₂.2.1 x v (h₁.2.1 x v h),
   fun x h => h₂.2.2 x (h₁.2.2 x h)⟩

theorem visitNeighbor_eq_new {s : BfsSt} {w : String} (lvl : Nat) (v : String)
    (h : alookup s.seen w = none) :
    visitNeighbor lvl v s w =
      ⟨s.seen ++ [(w, lvl)], s.pred ++ [(w, [v])], s.nextlevel ++ [w]⟩ := by
  simp [visitNeighbor, h]

theorem visitNeighbor_eq_app {s : BfsSt} {w : String} (lvl : Nat) (v : String)
    (h : alookup s.seen w = some lvl) :
    visitNeighbor lvl v s w = ⟨s.seen, appendPred s.pred w v, s.nextlevel⟩ := by
  simp [visitNeighbor, h]

theorem visitNeighbor_eq_skip {s : BfsSt} {w : String} {l : Nat} (lvl : Nat)
    (v : String) (h : alookup s.seen w = some l) (hne : l ≠ lvl) :
    visitNeighbor lvl v s w = s := by
  simp [visitNeighbor, h, hne]

theorem visitNeighbor_le (lvl : Nat) (v : String) (s : BfsSt) (w : String) :
    BfsLe s (visitNeighbor lvl v s w) := by
  cases hw : alookup s.seen w with
  | none =>
    rw [visitNeighbor_eq_new lvl v hw]
    refine ⟨fun x l h => ?_, fun x u h => ?_, fun x h => ?_⟩
    · exact alookup_append_left _ h
    · cases hx : alookup s.pred x with
      | none => simp [hx] at h
      | some vs => simpa [alookup_append_left _ hx, hx] using h
    · simp [h]
  | some l =>
    by_cases hl : l = lvl
    · rw [hl] at hw
      rw [visitNeighbor_eq_app lvl v hw]
      refine ⟨fun x l h => h, fun x u h => ?_, fun x h => h⟩
      by_cases hx : x = w
      · subst hx
        cases hp : alookup s.pred x with
        | none => simp [hp] at h
        | some vs =>
          simp only [hp, Option.getD_some] at h
          simp [appendPred_lookup_self v hp, h]
      · simpa [appendPred_lookup_ne v hx] using h
    · rw [visitNeighbor_eq_skip lvl v hw hl]
      exact BfsLe.refl s

theorem foldl_le {β : Type} {f : BfsSt → β → BfsSt}
    (hf : ∀ s b, BfsLe s (f s b)) :
    ∀ (l : List β) (s : BfsSt), BfsLe s (l.foldl f s)
  | [], s => BfsLe.refl s
  | b :: bs, s => BfsLe.trans (hf s b) (foldl_le hf bs (f s b))

theorem visitNode_le (adj : String → List String) (lvl : Nat) (s : BfsSt)
    (v : String) : BfsLe s (visitNode adj lvl s v) :=
  foldl_le (visitNeighbor_le lvl v) (adj v) s

theorem bfsRound_le (adj : String → List String) (lvl : Nat)
    (thislevel : List String) (s : BfsSt) : BfsLe s (bfsRound adj lvl thislevel s) :=
  foldl_le (visitNode_le adj lvl) thislevel s

/-! ## The search invariant

`RoundInv adj source univ L seen₀ s` describes any intermediate state
`s` reached while the `while` loop is processing the frontier of level
`L - 1` (assigning level `L`); `seen₀` is the `seen` dictionary at the
start of that round and `univ` a finite superset of every node the
search can touch. -/

structure RoundInv (adj : String → List String) (source : String) (univ : List String)
    (L : Nat) (seen₀ : List (String × Nat)) (s : BfsSt) : Prop where
  ext : ∃ d, s.seen = seen₀ ++ d ∧ ∀ kv ∈ d, kv.2 = L ∧ kv.1 ∈ s.nextlevel
  src0 : alookup s.seen source = some 0
  nodupKeys : (s.seen.map Prod.fst).Nodup
  levelsLe : ∀ v l, alookup s.seen v = some l → l ≤ L
  nextIff : ∀ v, v ∈ s.nextlevel ↔ alookup s.seen v = some L
  nextNodup : s.nextlevel.Nodup
  closure : ∀ v l, alookup s.seen v = some l → l + 1 < L → ∀ w ∈ adj v,
    ∃ lw, alookup s.seen w = some lw ∧ lw ≤ l + 1
  predAdj : ∀ w vs, alookup s.pred w = some vs → ∀ u ∈ vs,
    w ∈ adj u ∧ ∃ lu, alookup s.seen u = some lu ∧ alookup s.seen w = some (lu + 1)
  predKeys : ∀ w, (alookup s.pred w).isSome = (alookup s.seen w).isSome
  predNonempty : ∀ w vs, alookup s.pred w = some vs → w ≠ source → vs ≠ []
  soundSeen : ∀ v l, alookup s.seen v = some l → ∃ p, isChain adj p = true ∧
    p.head? = some source ∧ p.getLast? = some v ∧ p.length = l + 1 ∧
    ∀ x ∈ p, (alookup s.seen x).isSome = true
  keysUniv : ∀ v, (alookup s.seen v).isSome = true → v ∈ univ
  predComplete : ∀ u lu w, alookup s.seen u = some lu → lu + 2 ≤ L → w ∈ adj u →
    alookup s.seen w = some (lu + 1) → u ∈ (alookup s.pred w).getD []

theorem visitNeighbor_inv {adj : String → List String} {source : String}
    {univ : List String} {L : Nat} {seen₀ : List (String × Nat)} {s : BfsSt}
    {v w : String} (inv : RoundInv adj source univ L seen₀ s)
    (hv : alookup s.seen v = some (L - 1)) (hL : 1 ≤ L)
    (hw : w ∈ adj v) (hwu : w ∈ univ) :
    RoundInv adj source univ L seen₀ (visitNeighbor L v s w) := by
  cases hseenw : alookup s.seen w with
  | none =>
    rw [visitNeighbor_eq_new L v hseenw]
    have hnotmem : w ∉ s.seen.map Prod.fst := alookup_none_not_mem hseenw
    have hlook : ∀ x, alookup (s.seen ++ [(w, L)]) x =
        if x = w then some L else alookup s.seen x := by
      intro x
      by_cases hx : x = w
      · subst hx
        rw [alookup_append_right _ hseenw]
        simp [alookup]
      · rw [if_neg hx]
        cases hsx : alookup s.seen x with
        | none =>
          rw [alookup_append_right _ hsx]
          simp [alookup, Ne.symm hx]
        | some l => exact alookup_append_left _ hsx
    have hpredw : alookup s.pred w = none := by
      have := inv.predKeys w
      rw [hseenw] at this
      simpa using this
    have hplook : ∀ x, alookup (s.pred ++ [(w, [v])]) x =
        if x = w then some [v] else alookup s.pred x := by
      intro x
      by_cases hx : x = w
      · subst hx
        rw [alookup_append_right _ hpredw]
        simp [alookup]
      · rw [if_neg hx]
        cases hsx : alookup s.pred x with
        | none =>
          rw [alookup_append_right _ hsx]
          simp [alookup, Ne.symm hx]
        | some l => exact alookup_append_left _ hsx
    have hmono : ∀ x l, alookup s.seen x = some l → alookup (s.seen ++ [(w, L)]) x = some l :=
      fun x l h => alookup_append_left _ h
    have hmonoSome : ∀ x, (alookup s.seen x).isSome = true →
        (alookup (s.seen ++ [(w, L)]) x).isSome = true := by
      intro x h
      obtain ⟨l, hl⟩ := Option.isSome_iff_exists.1 h
      rw [hmono x l hl]
      rfl
    obtain ⟨d, hd, hdmem⟩ := inv.ext
    refine ⟨?_, ?_, ?_, ?_, ?_, ?_, ?_, ?_, ?_, ?_, ?_, ?_, ?_⟩
    · refine ⟨d ++ [(w, L)], by simp [hd], ?_⟩
      intro kv hkv
      rcases List.mem_append.1 hkv with h1 | h2
      · exact ⟨(hdmem kv h1).1, List.mem_append_left _ (hdmem kv h1).2⟩
      · simp only [List.mem_singleton] at h2
        subst h2
        simp
    · exact hmono _ _ inv.src0
    · simp only [List.map_append, List.map_cons, List.map_nil]
      rw [List.nodup_append]
      exact ⟨inv.nodupKeys, List.nodup_singleton w, by simpa using hnotmem⟩
    · intro x l h
      rw [hlook x] at h
      by_cases hx : x = w
      · rw [if_pos hx] at h
        cases h
        omega
      · rw [if_neg hx] at h
        exact inv.levelsLe x l h
    · intro x
      rw [hlook x]
      by_cases hx : x = w
      · subst hx
        simp [List.mem_append]
      · simp only [if_neg hx, List.mem_append, List.mem_singleton]
        rw [← inv.nextIff x]
        simp [hx]
    · have hwnot : w ∉ s.nextlevel := by
        intro hmem
        rw [inv.nextIff w, hseenw] at hmem
        cases hmem
      rw [List.nodup_append]
      exact ⟨inv.nextNodup, List.nodup_singleton w, by simpa using hwnot⟩
    · intro x l h hlt x' hx'
      rw [hlook x] at h
      by_cases hx : x = w
      · rw [if_pos hx] at h
        cases h
        omega
      · rw [if_neg hx] at h
        obtain ⟨lw, hlw, hle⟩ := inv.closure x l h hlt x' hx'
        exact ⟨lw, hmono _ _ hlw, hle⟩
    · intro x vs h u hu
      rw [hplook x] at h
      by_cases hx : x = w
      · subst hx
        rw [if_pos rfl] at h
        cases h
        simp only [List.mem_singleton] at hu
        subst hu
        refine ⟨hw, L - 1, hmono _ _ hv, ?_⟩
        rw [hlook x, if_pos rfl]
        congr 1
        omega
      · rw [if_neg hx] at h
        obtain ⟨h1, lu, h2, h3⟩ := inv.predAdj x vs h u hu
        exact ⟨h1, lu, hmono _ _ h2, hmono _ _ h3⟩
    · intro x
      rw [hplook x, hlook x]
      by_cases hx : x = w
      · simp [hx]
      · simp only [if_neg hx]
        exact inv.predKeys x
    · intro x vs h hxs
      rw [hplook x] at h
      by_cases hx : x = w
      · rw [if_pos hx] at h
        cases h
        simp
      · rw [if_neg hx] at h
        exact inv.predNonempty x vs h hxs
    · intro x l h
      rw [hlook x] at h
      by_cases hx : x = w
      · rw [if_pos hx] at h
        cases hx
        cases h
        obtain ⟨p, hch, hh, hlast, hlen, hall⟩ := inv.soundSeen v (L - 1) hv
        refine ⟨p ++ [w], isChain_snoc hch hlast hw, ?_, ?_, ?_, ?_⟩
        · cases p with
          | nil => simp at hlen
          | cons a q => simpa using hh
        · simp
        · simp only [List.length_append, List.length_singleton, hlen]
          omega
        · intro x hx
          rcases List.mem_append.1 hx with h1 | h2
          · exact hmonoSome x (hall x h1)
          · simp only [List.mem_singleton] at h2
            subst h2
            rw [hlook x, if_pos rfl]
            rfl
      · rw [if_neg hx] at h
        obtain ⟨p, h1, h2, h3, h4, h5⟩ := inv.soundSeen x l h
        exact ⟨p, h1, h2, h3, h4, fun y hy => hmonoSome y (h5 y hy)⟩
    · intro x h
      by_cases hx : x = w
      · subst hx
        exact hwu
      · rw [hlook x, if_neg hx] at h
        exact inv.keysUniv x h
    · intro u' lu x hu' hle hadj hx
      rw [hlook u'] at hu'
      rw [hlook x] at hx
      by_cases hxw : x = w
      · rw [if_pos hxw] at hx
        exfalso
        injection hx with hx'
        omega
      · rw [if_neg hxw] at hx
        by_cases huw : u' = w
        · rw [if_pos huw] at hu'
          exfalso
          injection hu' with hu''
          omega
        · rw [if_neg huw] at hu'
          have := inv.predComplete u' lu x hu' hle hadj hx
          rw [hplook x, if_neg hxw]
          exact this
  | some l =>
    by_cases hl : l = L
    · rw [hl] at hseenw
      rw [visitNeighbor_eq_app L v hseenw]
      have hpredw : ∃ vs, alookup s.pred w = some vs := by
        have := inv.predKeys w
        rw [hseenw] at this
        exact Option.isSome_iff_exists.1 (by simpa using this)
      obtain ⟨vs, hvs⟩ := hpredw
      have hplook : ∀ x, alookup (appendPred s.pred w v) x =
          if x = w then some (vs ++ [v]) else alookup s.pred x := by
        intro x
        by_cases hx : x = w
        · subst hx
          rw [if_pos rfl]
          exact appendPred_lookup_self v hvs
        · rw [if_neg hx]
          exact appendPred_lookup_ne v hx
      refine ⟨inv.ext, inv.src0, inv.nodupKeys, inv.levelsLe, inv.nextIff,
        inv.nextNodup, inv.closure, ?_, ?_, ?_, inv.soundSeen, inv.keysUniv, ?_⟩
      · intro x vs' h u hu
        rw [hplook x] at h
        by_cases hx : x = w
        · subst hx
          rw [if_pos rfl] at h
          cases h
          rcases List.mem_append.1 hu with h1 | h2
          · exact inv.predAdj x vs hvs u h1
          · simp only [List.mem_singleton] at h2
            subst h2
            refine ⟨hw, L - 1, hv, ?_⟩
            rw [hseenw]
            congr 1
            omega
        · rw [if_neg hx] at h
          exact inv.predAdj x vs' h u hu
      · intro x
        rw [hplook x]
        by_cases hx : x = w
        · subst hx
          rw [if_pos rfl, hseenw]
          rfl
        · rw [if_neg hx]
          exact inv.predKeys x
      · intro x vs' h hxs
        rw [hplook x] at h
        by_cases hx : x = w
        · rw [if_pos hx] at h
          cases h
          simp
        · rw [if_neg hx] at h
          exact inv.predNonempty x vs' h hxs
      · intro u' lu x hu' hle hadj hx
        have := inv.predComplete u' lu x hu' hle hadj hx
        rw [hplook x]
        by_cases hxw : x = w
        · subst hxw
          rw [if_pos rfl]
          rw [hvs] at this
          simp only [Option.getD_some] at this ⊢
          exact List.mem_append_left _ this
        · rw [if_neg hxw]
          exact this
    · rw [visitNeighbor_eq_skip L v hseenw hl]
      exact inv

theorem visitList_inv {adj : String → List String} {source : String}
    {univ : List String} {L : Nat} {seen₀ : List (String × Nat)} {v : String} :
    ∀ (ws : List String) (s : BfsSt),
      RoundInv adj source univ L seen₀ s →
      alookup s.seen v = some (L - 1) → 1 ≤ L →
      (∀ w ∈ ws, w ∈ adj v) → (∀ u x, x ∈ adj u → x ∈ univ) →
      RoundInv adj source univ L seen₀ (ws.foldl (visitNeighbor L v) s) ∧
      ∀ w ∈ ws, ∃ lw, lw ≤ L ∧
        alookup (ws.foldl (visitNeighbor L v) s).seen w = some lw ∧
        (lw = L → v ∈ (alookup (ws.foldl (visitNeighbor L v) s).pred w).getD [])
  | [], s => by
    intro inv hv hL hws huniv
    exact ⟨inv, by simp⟩
  | w :: ws, s => by
    intro inv hv hL hws huniv
    have hwadj : w ∈ adj v := hws w (List.mem_cons_self _ _)
    have hwu : w ∈ univ := huniv v w hwadj
    have inv₁ := visitNeighbor_inv inv hv hL hwadj hwu
    have hv₁ : alookup (visitNeighbor L v s w).seen v = some (L - 1) :=
      (visitNeighbor_le L v s w).1 v (L - 1) hv
    obtain ⟨invf, post⟩ := visitList_inv ws (visitNeighbor L v s w) inv₁ hv₁ hL
      (fun x hx => hws x (List.mem_cons_of_mem _ hx)) huniv
    have hrest : BfsLe (visitNeighbor L v s w)
        (ws.foldl (visitNeighbor L v) (visitNeighbor L v s w)) :=
      foldl_le (visitNeighbor_le L v) ws _
    refine ⟨invf, ?_⟩
    intro x hx
    rcases List.mem_cons.1 hx with rfl | hxs
    · -- the head neighbour was handled by the first step
      cases hseenw : alookup s.seen x with
      | none =>
        refine ⟨L, le_refl L, ?_, ?_⟩
        · apply hrest.1
          rw [visitNeighbor_eq_new L v hseenw]
          simp only
          rw [alookup_append_right _ hseenw]
          simp [alookup]
        · intro _
          apply hrest.2.1
          rw [visitNeighbor_eq_new L v hseenw]
          simp only
          have hpredw : alookup s.pred x = none := by
            have := inv.predKeys x
            rw [hseenw] at this
            simpa using this
          rw [alookup_append_right _ hpredw]
          simp [alookup]
      | some l =>
        by_cases hl : l = L
        · rw [hl] at hseenw
          refine ⟨L, le_refl L, ?_, ?_⟩
          · apply hrest.1
            rw [visitNeighbor_eq_app L v hseenw]
            exact hseenw
          · intro _
            apply hrest.2.1
            rw [visitNeighbor_eq_app L v hseenw]
            have hpredw : ∃ vs, alookup s.pred x = some vs := by
              have := inv.predKeys x
              rw [hseenw] at this
              exact Option.isSome_iff_exists.1 (by simpa using this)
            obtain ⟨vs, hvs⟩ := hpredw
            simp only
            rw [appendPred_lookup_self v hvs]
            simp
        · refine ⟨l, inv.levelsLe x l hseenw, ?_, fun hcon => absurd hcon hl⟩
          apply hrest.1
          rw [visitNeighbor_eq_skip L v hseenw hl]
          exact hseenw
    · exact post x hxs

theorem roundFold_inv {adj : String → List String} {source : String}
    {univ : List String} {L : Nat} {seen₀ : List (String × Nat)} :
    ∀ (vs : List String) (s : BfsSt),
      RoundInv adj source univ L seen₀ s →
      (∀ v ∈ vs, alookup s.seen v = some (L - 1)) → 1 ≤ L →
      (∀ u x, x ∈ adj u → x ∈ univ) →
      RoundInv adj source univ L seen₀ (vs.foldl (visitNode adj L) s) ∧
      ∀ v ∈ vs, ∀ w ∈ adj v, ∃ lw, lw ≤ L ∧
        alookup (vs.foldl (visitNode adj L) s).seen w = some lw ∧
        (lw = L → v ∈ (alookup (vs.foldl (visitNode adj L) s).pred w).getD [])
  | [], s => by
    intro inv hvs hL huniv
    exact ⟨inv, by simp⟩
  | v :: vs, s => by
    intro inv hvl hL huniv
    have hv : alookup s.seen v = some (L - 1) := hvl v (List.mem_cons_self _ _)
    obtain ⟨inv₁, post₁⟩ := visitList_inv (adj v) s inv hv hL (fun _ h => h) huniv
    have hmono₁ : BfsLe s (visitNode adj L s v) := visitNode_le adj L s v
    obtain ⟨invf, post⟩ := roundFold_inv vs (visitNode adj L s v) inv₁
      (fun x hx => hmono₁.1 x (L - 1) (hvl x (List.mem_cons_of_mem _ hx))) hL huniv
    have hrest : BfsLe (visitNode adj L s v)
        (vs.foldl (visitNode adj L) (visitNode adj L s v)) :=
      foldl_le (visitNode_le adj L) vs _
    refine ⟨invf, ?_⟩
    intro x hx w hw
    rcases List.mem_cons.1 hx with rfl | hxs
    · obtain ⟨lw, h1, h2, h3⟩ := post₁ w hw
      exact ⟨lw, h1, hrest.1 w lw h2, fun hL' => hrest.2.1 w x (h3 hL')⟩
    · exact post x hxs w hw

/-- Invariant at every entry of the `while nextlevel` loop: `lvl` is
the current level and `s.nextlevel` the frontier (the nodes first seen
at level `lvl`). -/
structure BInv (adj : String → List String) (source : String) (univ : List String)
    (lvl : Nat) (s : BfsSt) : Prop where
  src0 : alookup s.seen source = some 0
  nodupKeys : (s.seen.map Prod.fst).Nodup
  levelsLe : ∀ v l, alookup s.seen v = some l → l ≤ lvl
  nextIff : ∀ v, v ∈ s.nextlevel ↔ alookup s.seen v = some lvl
  nextNodup : s.nextlevel.Nodup
  closure : ∀ v l, alookup s.seen v = some l → l < lvl → ∀ w ∈ adj v,
    ∃ lw, alookup s.seen w = some lw ∧ lw ≤ l + 1
  predAdj : ∀ w vs, alookup s.pred w = some vs → ∀ u ∈ vs,
    w ∈ adj u ∧ ∃ lu, alookup s.seen u = some lu ∧ alookup s.seen w = some (lu + 1)
  predKeys : ∀ w, (alookup s.pred w).isSome = (alookup s.seen w).isSome
  predNonempty : ∀ w vs, alookup s.pred w = some vs → w ≠ source → vs ≠ []
  soundSeen : ∀ v l, alookup s.seen v = some l → ∃ p, isChain adj p = true ∧
    p.head? = some source ∧ p.getLast? = some v ∧ p.length = l + 1 ∧
    ∀ x ∈ p, (alookup s.seen x).isSome = true
  keysUniv : ∀ v, (alookup s.seen v).isSome = true → v ∈ univ
  predComplete : ∀ u lu w, alookup s.seen u = some lu → lu < lvl → w ∈ adj u →
    alookup s.seen w = some (lu + 1) → u ∈ (alookup s.pred w).getD []
  levelsInhab : ∀ k, k < lvl → ∃ v, alookup s.seen v = some k

theorem bfsRound_inv {adj : String → List String} {source : String}
    {univ : List String} {lvl : Nat} {seen : List (String × Nat)}
    {pred : List (String × List String)} {nextlevel : List String}
    (inv : BInv adj source univ lvl ⟨seen, pred, nextlevel⟩)
    (hne : nextlevel ≠ [])
    (huniv : ∀ u x, x ∈ adj u → x ∈ univ) :
    BInv adj source univ (lvl + 1) (bfsRound adj (lvl + 1) nextlevel ⟨seen, pred, []⟩) ∧
    ∃ d, (bfsRound adj (lvl + 1) nextlevel ⟨seen, pred, []⟩).seen = seen ++ d ∧
      ((bfsRound adj (lvl + 1) nextlevel ⟨seen, pred, []⟩).nextlevel ≠ [] → d ≠ []) := by
  have rinv0 : RoundInv adj source univ (lvl + 1) seen ⟨seen, pred, []⟩ := by
    refine ⟨⟨[], by simp, by simp⟩, inv.src0, inv.nodupKeys, ?_, ?_, List.nodup_nil,
      ?_, inv.predAdj, inv.predKeys, inv.predNonempty, inv.soundSeen, inv.keysUniv, ?_⟩
    · intro v l h
      exact Nat.le_succ_of_le (inv.levelsLe v l h)
    · intro v
      simp only [List.not_mem_nil, false_iff]
      intro hcon
      have := inv.levelsLe v (lvl + 1) hcon
      omega
    · intro v l h hlt w hw
      exact inv.closure v l h (by omega) w hw
    · intro u lu w hu hle hadj hw
      exact inv.predComplete u lu w hu (by omega) hadj hw
  have hlvlall : ∀ v ∈ nextlevel, alookup seen v = some (lvl + 1 - 1) := by
    intro v hv
    have := (inv.nextIff v).1 hv
    simpa using this
  obtain ⟨invf, post⟩ := roundFold_inv nextlevel ⟨seen, pred, []⟩ rinv0 hlvlall
    (by omega) huniv
  have hfold : List.foldl (visitNode adj (lvl + 1)) ⟨seen, pred, []⟩ nextlevel =
      bfsRound adj (lvl + 1) nextlevel ⟨seen, pred, []⟩ := rfl
  rw [hfold] at invf post
  obtain ⟨d, hd, hdmem⟩ := invf.ext
  have hseen_old : ∀ v l, alookup (bfsRound adj (lvl + 1) nextlevel
      ⟨seen, pred, []⟩).seen v = some l → l ≤ lvl → alookup seen v = some l := by
    intro v l hv hle
    rw [hd, alookup_append] at hv
    cases hsv : alookup seen v with
    | some l' =>
      rw [hsv] at hv
      exact hv
    | none =>
      rw [hsv] at hv
      exfalso
      have := hdmem (v, l) (alookup_mem hv)
      simp only at this
      omega
  constructor
  · refine ⟨invf.src0, invf.nodupKeys, invf.levelsLe, invf.nextIff, invf.nextNodup,
      ?_, invf.predAdj, invf.predKeys, invf.predNonempty, invf.soundSeen,
      invf.keysUniv, ?_, ?_⟩
    · -- closure up to the new level
      intro v l hv hlt w hw
      by_cases hl : l < lvl
      · exact invf.closure v l hv (by omega) w hw
      · have hleq : l = lvl := by omega
        rw [hleq] at hv
        rw [hleq]
        have hvold : alookup seen v = some lvl := hseen_old v lvl hv (le_refl lvl)
        have hvin : v ∈ nextlevel := (inv.nextIff v).2 hvold
        obtain ⟨lw, h1, h2, _⟩ := post v hvin w hw
        exact ⟨lw, h2, by omega⟩
    · -- predecessor completeness up to the new level
      intro u lu w hu hlt hadj hw
      by_cases hl : lu < lvl
      · exact invf.predComplete u lu w hu (by omega) hadj hw
      · have hleq : lu = lvl := by omega
        rw [hleq] at hu hw
        have huold : alookup seen u = some lvl := hseen_old u lvl hu (le_refl lvl)
        have huin : u ∈ nextlevel := (inv.nextIff u).2 huold
        obtain ⟨lw, h1, h2, h3⟩ := post u huin w hadj
        rw [hw] at h2
        cases h2
        exact h3 rfl
    · -- all levels below the new one are inhabited
      intro k hk
      by_cases hkl : k < lvl
      · obtain ⟨v, hv⟩ := inv.levelsInhab k hkl
        exact ⟨v, (bfsRound_le adj (lvl + 1) nextlevel ⟨seen, pred, []⟩).1 v k hv⟩
      · have hkeq : k = lvl := by omega
        rw [hkeq]
        obtain ⟨v, hvmem⟩ := List.exists_mem_of_ne_nil nextlevel hne
        have := (inv.nextIff v).1 hvmem
        exact ⟨v, (bfsRound_le adj (lvl + 1) nextlevel ⟨seen, pred, []⟩).1 v lvl this⟩
  · refine ⟨d, hd, ?_⟩
    intro hnext hcon
    subst hcon
    cases hcase : (bfsRound adj (lvl + 1) nextlevel ⟨seen, pred, []⟩).nextlevel with
    | nil => exact hnext hcase
    | cons v vs =>
      have hv : v ∈ (bfsRound adj (lvl + 1) nextlevel ⟨seen, pred, []⟩).nextlevel := by
        rw [hcase]; exact List.mem_cons_self _ _
      have hlv := (invf.nextIff v).1 hv
      rw [hd] at hlv
      simp only [List.append_nil] at hlv
      have := inv.levelsLe v (lvl + 1) hlv
      omega

/-- Everything the rest of the development needs about the finished
predecessor search. -/
structure BfsFinal (adj : String → List String) (source : String) (univ : List String)
    (seen : List (String × Nat)) (pred : List (String × List String)) : Prop where
  src0 : alookup seen source = some 0
  keysUniv : ∀ v, (alookup seen v).isSome = true → v ∈ univ
  soundSeen : ∀ v l, alookup seen v = some l → ∃ p, isChain adj p = true ∧
    p.head? = some source ∧ p.getLast? = some v ∧ p.length = l + 1 ∧
    ∀ x ∈ p, (alookup seen x).isSome = true
  predAdj : ∀ w vs, alookup pred w = some vs → ∀ u ∈ vs,
    w ∈ adj u ∧ ∃ lu, alookup seen u = some lu ∧ alookup seen w = some (lu + 1)
  predKeys : ∀ w, (alookup pred w).isSome = (alookup seen w).isSome
  predNonempty : ∀ w vs, alookup pred w = some vs → w ≠ source → vs ≠ []
  closure : ∀ v l, alookup seen v = some l → ∀ w ∈ adj v,
    ∃ lw, alookup seen w = some lw ∧ lw ≤ l + 1
  predComplete : ∀ u lu w, alookup seen u = some lu → w ∈ adj u →
    alookup seen w = some (lu + 1) → u ∈ (alookup pred w).getD []
  levelBound : ∀ v l, alookup seen v = some l → l < seen.length
  lenUniv : seen.length ≤ univ.length

theorem BInv_exit {adj : String → List String} {source : String} {univ : List String}
    {lvl : Nat} {seen : List (String × Nat)} {pred : List (String × List String)}
    (inv : BInv adj source univ lvl ⟨seen, pred, []⟩) :
    BfsFinal adj source univ seen pred := by
  have hlt : ∀ v l, alookup seen v = some l → l < lvl := by
    intro v l hv
    have hle := inv.levelsLe v l hv
    rcases Nat.lt_or_ge l lvl with h | h
    · exact h
    · have hleq : l = lvl := by omega
      subst hleq
      have := (inv.nextIff v).2 hv
      simp at this
  have hlvl_le : lvl ≤ seen.length := by
    have hsub : Finset.range lvl ⊆ (seen.map Prod.snd).toFinset := by
      intro k hk
      rw [Finset.mem_range] at hk
      obtain ⟨v, hv⟩ := inv.levelsInhab k hk
      rw [List.mem_toFinset]
      exact List.mem_map.2 ⟨(v, k), alookup_mem hv, rfl⟩
    have hcard := Finset.card_le_card hsub
    have hfin : ((seen.map Prod.snd).toFinset).card ≤ (seen.map Prod.snd).length :=
      List.toFinset_card_le _
    simp only [Finset.card_range, List.length_map] at hcard hfin
    omega
  refine ⟨inv.src0, inv.keysUniv, inv.soundSeen, inv.predAdj, inv.predKeys,
    inv.predNonempty, ?_, ?_, ?_, ?_⟩
  · intro v l hv w hw
    exact inv.closure v l hv (hlt v l hv) w hw
  · intro u lu w hu hadj hw
    exact inv.predComplete u lu w hu (hlt u lu hu) hadj hw
  · intro v l hv
    have := hlt v l hv
    omega
  · have hsub : (seen.map Prod.fst).toFinset ⊆ univ.toFinset := by
      intro k hk
      rw [List.mem_toFinset] at hk ⊢
      exact inv.keysUniv k (alookup_isSome_iff.2 hk)
    have hcard := Finset.card_le_card hsub
    have hlen : ((seen.map Prod.fst).toFinset).card = seen.length := by
      rw [List.toFinset_card_of_nodup inv.nodupKeys]
      simp
    have hfin : (univ.toFinset).card ≤ univ.length := List.toFinset_card_le _
    omega

theorem bfsLoop_nil (adj : String → List String) (fuel lvl : Nat)
    (seen : List (String × Nat)) (pred : List (String × List String)) :
    bfsLoop adj fuel lvl [] seen pred = (seen, pred) := by
  cases fuel <;> simp [bfsLoop]

theorem bfsLoop_final {adj : String → List String} {source : String}
    {univ : List String} (huniv : ∀ u x, x ∈ adj u → x ∈ univ) :
    ∀ (fuel lvl : Nat) (nextlevel : List String) (seen : List (String × Nat))
      (pred : List (String × List String)),
      BInv adj source univ lvl ⟨seen, pred, nextlevel⟩ →
      univ.toFinset.card + 1 ≤ fuel + seen.length →
      BfsFinal adj source univ (bfsLoop adj fuel lvl nextlevel seen pred).1
        (bfsLoop adj fuel lvl nextlevel seen pred).2 := by
  intro fuel
  induction fuel with
  | zero =>
    intro lvl nextlevel seen pred inv hfuel
    exfalso
    have hsub : (seen.map Prod.fst).toFinset ⊆ univ.toFinset := by
      intro k hk
      rw [List.mem_toFinset] at hk ⊢
      exact inv.keysUniv k (alookup_isSome_iff.2 hk)
    have hcard := Finset.card_le_card hsub
    have hlen : ((seen.map Prod.fst).toFinset).card = seen.length := by
      rw [List.toFinset_card_of_nodup inv.nodupKeys]
      simp
    omega
  | succ fuel ih =>
    intro lvl nextlevel seen pred inv hfuel
    by_cases hnil : nextlevel = []
    · subst hnil
      rw [bfsLoop_nil]
      exact BInv_exit inv
    · have hstep : bfsLoop adj (fuel + 1) lvl nextlevel seen pred =
        bfsLoop adj fuel (lvl + 1)
          (bfsRound adj (lvl + 1) nextlevel ⟨seen, pred, []⟩).nextlevel
          (bfsRound adj (lvl + 1) nextlevel ⟨seen, pred, []⟩).seen
          (bfsRound adj (lvl + 1) nextlevel ⟨seen, pred, []⟩).pred := by
        simp [bfsLoop, hnil]
      rw [hstep]
      obtain ⟨inv', d, hd, hgrow⟩ := bfsRound_inv inv hnil huniv
      have hinv' : BInv adj source univ (lvl + 1)
          ⟨(bfsRound adj (lvl + 1) nextlevel ⟨seen, pred, []⟩).seen,
           (bfsRound adj (lvl + 1) nextlevel ⟨seen, pred, []⟩).pred,
           (bfsRound adj (lvl + 1) nextlevel ⟨seen, pred, []⟩).nextlevel⟩ := inv'
      by_cases hnext : (bfsRound adj (lvl + 1) nextlevel ⟨seen, pred, []⟩).nextlevel = []
      · rw [hnext, bfsLoop_nil]
        rw [hnext] at hinv'
        exact BInv_exit hinv'
      · apply ih (lvl + 1) _ _ _ hinv'
        have hdne : d ≠ [] := hgrow hnext
        have hlen : seen.length + 1 ≤
            (bfsRound adj (lvl + 1) nextlevel ⟨seen, pred, []⟩).seen.length := by
          rw [hd, List.length_append]
          cases d with
          | nil => exact absurd rfl hdne
          | cons a t => simp
        omega

theorem BInv_init {adj : String → List String} {source : String} {univ : List String}
    (hsrc : source ∈ univ) :
    BInv adj source univ 0 ⟨[(source, 0)], [(source, [])], [source]⟩ := by
  have hseen : ∀ v l, alookup [(source, 0)] v = some l → v = source ∧ l = 0 := by
    intro v l h
    by_cases hv : source = v
    · subst hv
      simp [alookup] at h
      exact ⟨rfl, h.symm⟩
    · simp [alookup, hv] at h
  have hpred : ∀ w vs, alookup [(source, ([] : List String))] w = some vs →
      w = source ∧ vs = [] := by
    intro w vs h
    by_cases hw : source = w
    · subst hw
      simp [alookup] at h
      exact ⟨rfl, h⟩
    · simp [alookup, hw] at h
  refine ⟨by simp [alookup], by simp, ?_, ?_, List.nodup_singleton _, ?_, ?_, ?_,
    ?_, ?_, ?_, ?_, ?_⟩
  · intro v l h
    exact le_of_eq (hseen v l h).2
  · intro v
    simp only [List.mem_singleton]
    constructor
    · intro h
      subst h
      simp [alookup]
    · intro h
      exact (hseen v 0 h).1
  · intro v l h hlt
    omega
  · intro w vs h u hu
    obtain ⟨hw, hvs⟩ := hpred w vs h
    subst hvs
    simp at hu
  · intro w
    by_cases hw : source = w
    · subst hw; simp [alookup]
    · simp [alookup, hw]
  · intro w vs h hne
    exact absurd (hpred w vs h).1 hne
  · intro v l h
    obtain ⟨hv, hl⟩ := hseen v l h
    subst hl
    refine ⟨[v], by simp [isChain], by simp [hv], by simp, by simp, ?_⟩
    intro x hx
    simp only [List.mem_singleton] at hx
    subst hx
    simp [alookup, hv]
  · intro v h
    by_cases hv : source = v
    · subst hv; exact hsrc
    · simp [alookup, hv] at h
  · intro u lu w hu hlt
    omega
  · intro k hk
    omega

/-! ## List helper lemmas for path positions -/

theorem getLast?_take_succ {α : Type} {l : List α} {i : Nat} (h : i < l.length) :
    (l.take (i + 1)).getLast? = l[i]? := by
  rw [List.getLast?_eq_getElem?]
  have hlen : (l.take (i + 1)).length = i + 1 := by
    rw [List.length_take]
    omega
  rw [hlen]
  simp [List.getElem?_take_of_succ]

theorem getLast?_drop_of_lt {α : Type} :
    ∀ {l : List α} {n : Nat}, n < l.length → (l.drop n).getLast? = l.getLast?
  | [], n, h => by simp at h
  | a :: t, 0, _ => by simp
  | a :: t, n + 1, h => by
    have ht : n < t.length := by
      simp only [List.length_cons] at h
      omega
    have htne : t ≠ [] := by
      intro hcon
      rw [hcon] at ht
      simp at ht
    rw [List.drop_succ_cons, getLast?_drop_of_lt ht, List.getLast?_cons]
    obtain ⟨z, hz⟩ := Option.isSome_iff_exists.1 (List.getLast?_isSome.2 htne)
    rw [hz]
    rfl

theorem head?_drop_of_lt {α : Type} {l : List α} {n : Nat} (h : n < l.length) :
    (l.drop n).head? = l[n]? := by
  rw [List.drop_eq_getElem_cons h]
  simp [List.getElem?_eq_getElem h]

theorem head?_take_pos {α : Type} {l : List α} {n : Nat} (h : 0 < n) :
    (l.take n).head? = l.head? := by
  cases l with
  | nil => simp
  | cons a t =>
    cases n with
    | zero => omega
    | succ m => simp

theorem isChain_getElem_adj {adj : String → List String} :
    ∀ {p : List String} {i : Nat} {u v : String}, isChain adj p = true →
      p[i]? = some u → p[i + 1]? = some v → v ∈ adj u
  | [], i, u, v, h, hu, hv => by simp at hu
  | [a], i, u, v, h, hu, hv => by
    rcases List.getElem?_eq_some_iff.1 hv with ⟨hlt, _⟩
    simp at hlt
  | a :: b :: rest, i, u, v, h, hu, hv => by
    simp only [isChain, Bool.and_eq_true, decide_eq_true_eq] at h
    cases i with
    | zero =>
      simp only [List.getElem?_cons_zero, Option.some_inj] at hu
      simp only [List.getElem?_cons_succ, List.getElem?_cons_zero, Option.some_inj] at hv
      rw [← hu, ← hv]
      exact h.1
    | succ j =>
      rw [List.getElem?_cons_succ] at hu hv
      exact isChain_getElem_adj h.2 hu hv

/-! ## Soundness and completeness of the shortest-path enumeration -/

theorem buildPaths_sound {adj : String → List String} {source : String}
    {univ : List String} {seen : List (String × Nat)}
    {pred : List (String × List String)}
    (F : BfsFinal adj source univ seen pred) :
    ∀ (fuel : Nat) (node : String) (p : List String),
      p ∈ buildPaths pred source fuel node →
      ∃ l, alookup seen node = some l ∧ isChain adj p = true ∧
        p.head? = some source ∧ p.getLast? = some node ∧ p.length = l + 1 ∧
        ∀ (i : Nat) (x : String), p[i]? = some x → alookup seen x = some i
  | 0, node, p => by intro h; simp [buildPaths] at h
  | fuel + 1, node, p => by
    intro h
    simp only [buildPaths] at h
    rcases List.mem_append.1 h with h1 | h2
    · by_cases hns : node = source
      · rw [if_pos hns] at h1
        simp only [List.mem_singleton] at h1
        subst h1
        rw [hns]
        refine ⟨0, F.src0, by simp [isChain], by simp, by simp, by simp, ?_⟩
        intro i x hx
        cases i with
        | zero =>
          simp only [List.getElem?_cons_zero, Option.some_inj] at hx
          rw [← hx]
          exact F.src0
        | succ j => simp at hx
      · rw [if_neg hns] at h1
        simp at h1
    · rw [List.mem_flatMap] at h2
      obtain ⟨u, hu, hp⟩ := h2
      rw [List.mem_map] at hp
      obtain ⟨q, hq, rfl⟩ := hp
      have hvs : ∃ vs, alookup pred node = some vs ∧ u ∈ vs := by
        cases hv : alookup pred node with
        | none => rw [hv] at hu; simp at hu
        | some vs => rw [hv] at hu; exact ⟨vs, rfl, by simpa using hu⟩
      obtain ⟨vs, hvs1, hvs2⟩ := hvs
      obtain ⟨hadj, lu, hsu, hsn⟩ := F.predAdj node vs hvs1 u hvs2
      obtain ⟨l', hsu', hch, hh, hl, hlen, hpos⟩ := buildPaths_sound F fuel u q hq
      have hle : l' = lu := by
        rw [hsu] at hsu'
        injection hsu' with he
        omega
      subst hle
      refine ⟨l' + 1, hsn, isChain_snoc hch hl hadj, ?_, by simp, ?_, ?_⟩
      · rw [List.head?_append, hh]
        rfl
      · simp only [List.length_append, List.length_singleton]
        omega
      · intro i x hx
        by_cases hi : i < q.length
        · rw [List.getElem?_append_left hi] at hx
          exact hpos i x hx
        · have hi2 : i < q.length + 1 := by
            rcases List.getElem?_eq_some_iff.1 hx with ⟨hlt, _⟩
            simpa using hlt
          have hieq : i = q.length := by omega
          subst hieq
          rw [List.getElem?_concat_length] at hx
          injection hx with hx'
          rw [← hx']
          rw [hlen]
          exact hsn

theorem buildPaths_ne_nil {adj : String → List String} {source : String}
    {univ : List String} {seen : List (String × Nat)}
    {pred : List (String × List String)}
    (F : BfsFinal adj source univ seen pred) :
    ∀ (fuel l : Nat) (node : String), alookup seen node = some l → l < fuel →
      buildPaths pred source fuel node ≠ []
  | 0, l, node => by intro h hl; omega
  | fuel + 1, l, node => by
    intro h hl
    simp only [buildPaths]
    by_cases hns : node = source
    · rw [if_pos hns]
      simp
    · rw [if_neg hns]
      have hpred : ∃ vs, alookup pred node = some vs := by
        have := F.predKeys node
        rw [h] at this
        exact Option.isSome_iff_exists.1 (by simpa using this)
      obtain ⟨vs, hvs⟩ := hpred
      have hvsne := F.predNonempty node vs hvs hns
      obtain ⟨u, hu⟩ := List.exists_mem_of_ne_nil vs hvsne
      obtain ⟨hadj, lu, hsu, hsn⟩ := F.predAdj node vs hvs u hu
      have hlu : lu < fuel := by
        rw [h] at hsn
        injection hsn with he
        omega
      have hne := buildPaths_ne_nil F fuel lu u hsu hlu
      obtain ⟨q, hq⟩ := List.exists_mem_of_ne_nil _ hne
      have hmem : q ++ [node] ∈ (buildPaths pred source fuel u).map
          (fun q => q ++ [node]) := List.mem_map.2 ⟨q, hq, rfl⟩
      refine List.ne_nil_of_mem
        (List.mem_append_right _ (List.mem_flatMap.2 ⟨u, ?_, hmem⟩))
      rw [hvs]
      simpa using hu

theorem buildPaths_complete {source : String} {pred : List (String × List String)} :
    ∀ (fuel : Nat) (p : List String) (node : String),
      p.getLast? = some node → p.head? = some source →
      (∀ (i : Nat) (u v : String), p[i]? = some u → p[i + 1]? = some v →
        u ∈ (alookup pred v).getD []) →
      p.length ≤ fuel → p ≠ [] →
      p ∈ buildPaths pred source fuel node
  | 0, p, node => by
    intro hlast hhead hlinks hlen hne
    cases p with
    | nil => exact absurd rfl hne
    | cons a t => simp at hlen
  | fuel + 1, p, node => by
    intro hlast hhead hlinks hlen hne
    by_cases hone : p.length ≤ 1
    · -- a singleton path: the node is the source
      cases p with
      | nil => exact absurd rfl hne
      | cons a t =>
        cases t with
        | nil =>
          simp only [List.getLast?_singleton, Option.some_inj] at hlast
          simp only [List.head?_cons, Option.some_inj] at hhead
          rw [← hlast, ← hhead]
          simp only [buildPaths, if_pos rfl]
          simp
        | cons b t' => simp at hone
    · -- strip the final node
      have h2 : 2 ≤ p.length := by omega
      obtain ⟨q, hsplit⟩ : ∃ q, p = q ++ [node] := by
        have hgl : p.getLast hne = node := by
          have := List.getLast?_eq_getLast p hne
          rw [this] at hlast
          injection hlast
        exact ⟨p.dropLast, by rw [← hgl]; exact (List.dropLast_append_getLast hne).symm⟩
      subst hsplit
      have hqne : q ≠ [] := by
        intro hcon
        subst hcon
        simp at h2
      obtain ⟨v', hv'⟩ := Option.isSome_iff_exists.1 (List.getLast?_isSome.2 hqne)
      have hqlen : 1 ≤ q.length := by
        cases q with
        | nil => exact absurd rfl hqne
        | cons a t => simp
      have hlink : v' ∈ (alookup pred node).getD [] := by
        apply hlinks (q.length - 1) v' node
        · rw [List.getElem?_append_left (by omega)]
          rw [← List.getLast?_eq_getElem?]
          exact hv'
        · have hq1 : q.length - 1 + 1 = q.length := by omega
          rw [hq1, List.getElem?_concat_length]
      have hdlmem : q ∈ buildPaths pred source fuel v' := by
        apply buildPaths_complete fuel q v' hv'
        · rw [List.head?_append] at hhead
          cases hh : q.head? with
          | none =>
            rw [List.head?_eq_none_iff] at hh
            exact absurd hh hqne
          | some z =>
            rw [hh] at hhead
            simp only [Option.or_some] at hhead
            exact hhead
        · intro i u v hu hv
          apply hlinks i u v
          · rw [List.getElem?_append_left (by
              rcases List.getElem?_eq_some_iff.1 hu with ⟨hlt, _⟩
              exact hlt)]
            exact hu
          · rw [List.getElem?_append_left (by
              rcases List.getElem?_eq_some_iff.1 hv with ⟨hlt, _⟩
              exact hlt)]
            exact hv
        · have hq2 : (q ++ [node]).length = q.length + 1 := by simp
          omega
        · exact hqne
      simp only [buildPaths]
      apply List.mem_append_right
      exact List.mem_flatMap.2 ⟨v', hlink, List.mem_map.2 ⟨q, hdlmem, rfl⟩⟩

/-- BFS levels bound the length of every chain from a seen node. -/
theorem final_chain_bound {adj : String → List String} {source : String}
    {univ : List String} {seen : List (String × Nat)}
    {pred : List (String × List String)}
    (F : BfsFinal adj source univ seen pred) :
    ∀ (p : List String) (a : String) (la : Nat), isChain adj p = true →
      p.head? = some a → alookup seen a = some la →
      ∀ v, p.getLast? = some v → ∃ lv, alookup seen v = some lv ∧ lv + 1 ≤ la + p.length
  | [], a, la, hch, hh, ha, v, hv => by simp [isChain] at hch
  | [x], a, la, hch, hh, ha, v, hv => by
    simp only [List.head?_cons, Option.some_inj] at hh
    simp only [List.getLast?_singleton, Option.some_inj] at hv
    subst hh
    subst hv
    exact ⟨la, ha, by simp⟩
  | x :: y :: rest, a, la, hch, hh, ha, v, hv => by
    simp only [List.head?_cons, Option.some_inj] at hh
    subst hh
    simp only [isChain, Bool.and_eq_true, decide_eq_true_eq] at hch
    obtain ⟨ly, hly, hle⟩ := F.closure x la ha y hch.1
    rw [List.getLast?_cons_cons] at hv
    obtain ⟨lv, hlv, hlen⟩ := final_chain_bound F (y :: rest) y ly hch.2 (by simp) hly v hv
    refine ⟨lv, hlv, ?_⟩
    simp only [List.length_cons] at hlen ⊢
    omega

/-- Along a shortest chain produced against the finished search, the
`i`-th node sits exactly at BFS level `i`. -/
theorem final_min_positions {adj : String → List String} {source : String}
    {univ : List String} {seen : List (String × Nat)}
    {pred : List (String × List String)}
    (F : BfsFinal adj source univ seen pred)
    {q : List String} {dst : String} {l : Nat}
    (hch : isChain adj q = true) (hh : q.head? = some source)
    (hlast : q.getLast? = some dst)
    (hl : alookup seen dst = some l) (hlen : q.length = l + 1) :
    ∀ (i : Nat) (x : String), q[i]? = some x → alookup seen x = some i := by
  intro i x hx
  obtain ⟨hilt, hget⟩ := List.getElem?_eq_some_iff.1 hx
  have hprefix_ch : isChain adj (q.take (i + 1)) = true := isChain_take hch (by omega)
  have hprefix_h : (q.take (i + 1)).head? = some source := by
    rw [head?_take_pos (by omega)]
    exact hh
  have hprefix_last : (q.take (i + 1)).getLast? = some x := by
    rw [getLast?_take_succ hilt]
    exact hx
  have hprefix_len : (q.take (i + 1)).length = i + 1 := by
    rw [List.length_take]
    omega
  obtain ⟨lx, hlx, hlxle⟩ := final_chain_bound F (q.take (i + 1)) source 0
    hprefix_ch hprefix_h F.src0 x hprefix_last
  rw [hprefix_len] at hlxle
  have hile : i ≤ l := by omega
  by_cases hcase : lx = i
  · rw [← hcase]
    exact hlx
  · exfalso
    have hlxlt : lx < i := by omega
    obtain ⟨r, hrch, hrh, hrlast, hrlen, _⟩ := F.soundSeen x lx hlx
    have hsuffix : q.drop i = x :: q.drop (i + 1) := by
      rw [List.drop_eq_getElem_cons hilt, hget]
    have hsufch : isChain adj (x :: q.drop (i + 1)) = true := by
      rw [← hsuffix]
      exact isChain_drop hch hilt
    have hglue : isChain adj (r ++ q.drop (i + 1)) = true :=
      isChain_glue hrch hrlast hsufch
    have hgh : (r ++ q.drop (i + 1)).head? = some source := by
      rw [List.head?_append, hrh]
      rfl
    have hglast : (r ++ q.drop (i + 1)).getLast? = some dst := by
      by_cases hdnil : q.drop (i + 1) = []
      · have hlast_i : i = l := by
          have := List.length_drop (i + 1) q
          rw [hdnil] at this
          simp only [List.length_nil] at this
          omega
        have hxd : x = dst := by
          rw [List.getLast?_eq_getElem?] at hlast
          rw [hlen] at hlast
          simp only [Nat.add_sub_cancel] at hlast
          rw [hlast_i] at hx
          rw [hx] at hlast
          injection hlast
        rw [hdnil, List.append_nil, hrlast, hxd]
      · rw [List.getLast?_append]
        have hlt2 : i + 1 < q.length := by
          rcases Nat.lt_or_ge (i + 1) q.length with hc | hc
          · exact hc
          · exfalso
            exact hdnil (List.drop_eq_nil_of_le hc)
        rw [getLast?_drop_of_lt hlt2, hlast]
        rfl
    obtain ⟨l', hl', hbound⟩ := final_chain_bound F (r ++ q.drop (i + 1)) source 0
      hglue hgh F.src0 dst hglast
    rw [hl] at hl'
    injection hl' with he
    rw [List.length_append, hrlen, List.length_drop] at hbound
    omega

/-- Every hop-count-shortest live path is produced by the enumeration. -/
theorem final_complete {adj : String → List String} {source : String}
    {univ : List String} {seen : List (String × Nat)}
    {pred : List (String × List String)}
    (F : BfsFinal adj source univ seen pred)
    {q : List String} {dst : String} {l : Nat} {fuel : Nat}
    (hch : isChain adj q = true) (hh : q.head? = some source)
    (hlast : q.getLast? = some dst)
    (hl : alookup seen dst = some l) (hlen : q.length = l + 1)
    (hfuel : q.length ≤ fuel) :
    q ∈ buildPaths pred source fuel dst := by
  have hne : q ≠ [] := by
    intro hcon
    rw [hcon] at hlen
    simp at hlen
  apply buildPaths_complete fuel q dst hlast hh _ hfuel hne
  intro i u v hu hv
  have hsu := final_min_positions F hch hh hlast hl hlen i u hu
  have hsv := final_min_positions F hch hh hlast hl hlen (i + 1) v hv
  have hadj : v ∈ adj u := isChain_getElem_adj hch hu hv
  exact F.predComplete u i v hsu hadj hsv

/-! ## Specializing the search to the live subgraph -/

theorem mem_liveNodeList_iff {st : SDNController} {u : String} :
    u ∈ liveNodeList st ↔ inLive st u = true := by
  rw [liveNodeList, inLive, List.mem_flatMap, List.any_eq_true]
  constructor
  · intro ⟨e, he, hu⟩
    refine ⟨e, he, ?_⟩
    simp only [List.mem_cons, List.mem_singleton] at hu
    simp only [decide_eq_true_eq]
    rcases hu with h | h
    · left; rw [h]
    · rcases h with h | h
      · right; rw [h]
      · simp at h
  · intro ⟨e, he, hu⟩
    simp only [decide_eq_true_eq] at hu
    refine ⟨e, he, ?_⟩
    rcases hu with h | h
    · simp [h]
    · simp [h]

theorem liveNeighbors_mem_univ (st : SDNController) :
    ∀ u x, x ∈ liveNeighbors st u → x ∈ liveNodeList st := by
  intro u x hx
  rw [liveNeighbors, List.mem_filterMap] at hx
  obtain ⟨e, he, hfe⟩ := hx
  rw [liveNodeList, List.mem_flatMap]
  refine ⟨e, he, ?_⟩
  by_cases h1 : e.n1 = u
  · rw [if_pos h1] at hfe
    injection hfe with h
    simp [h]
  · rw [if_neg h1] at hfe
    by_cases h2 : e.n2 = u
    · rw [if_pos h2] at hfe
      injection hfe with h
      simp [h]
    · rw [if_neg h2] at hfe
      cases hfe

theorem liveNeighbors_availLink {st : SDNController} {u x : String}
    (hx : x ∈ liveNeighbors st u) : isAvailLink st u x = true := by
  rw [liveNeighbors, List.mem_filterMap] at hx
  obtain ⟨e, he, hfe⟩ := hx
  rw [isAvailLink, List.any_eq_true]
  refine ⟨e, he, ?_⟩
  by_cases h1 : e.n1 = u
  · rw [if_pos h1] at hfe
    injection hfe with h
    simp [edgeMatches, h1, h]
  · rw [if_neg h1] at hfe
    by_cases h2 : e.n2 = u
    · rw [if_pos h2] at hfe
      injection hfe with h
      simp [edgeMatches, h2, h]
    · rw [if_neg h2] at hfe
      cases hfe

/-- The finished predecessor search over the live subgraph. -/
theorem bfs_final (st : SDNController) (src : String) (h : inLive st src = true) :
    BfsFinal (liveNeighbors st) src (liveNodeList st)
      (predecessorMap (liveNeighbors st) src (bfsFuel st)).1
      (predecessorMap (liveNeighbors st) src (bfsFuel st)).2 := by
  apply bfsLoop_final (liveNeighbors_mem_univ st) (bfsFuel st) 0 [src]
    [(src, 0)] [(src, [])]
  · exact BInv_init (mem_liveNodeList_iff.2 h)
  · have := List.toFinset_card_le (liveNodeList st)
    simp only [List.length_singleton, bfsFuel]
    omega

/-- A live path keeps its source in the live subgraph. -/
theorem livePath_src_inLive {st : SDNController} {src dst : String} {p : List String}
    (hp : livePath st src dst p) : inLive st src = true := by
  obtain ⟨hh, _, _, hall⟩ := hp
  apply hall
  cases p with
  | nil => cases hh
  | cons a t =>
    simp only [List.head?_cons, Option.some_inj] at hh
    rw [hh]
    exact List.mem_cons_self _ _

/-- Soundness of the enumerated shortest paths. -/
theorem allShortestPaths_sound {st : SDNController} {src dst : String}
    (h : inLive st src = true) :
    ∀ p ∈ allShortestPathsList st src dst, livePath st src dst p ∧
      (∀ q, livePath st src dst q → p.length ≤ q.length) := by
  intro p hp
  have F := bfs_final st src h
  obtain ⟨l, hl, hch, hh, hlast, hlen, hpos⟩ := buildPaths_sound F (bfsFuel st) dst p hp
  have hlive : livePath st src dst p := by
    refine ⟨hh, hlast, hch, ?_⟩
    intro x hx
    obtain ⟨i, hi⟩ := List.mem_iff_getElem?.1 hx
    have := hpos i x hi
    apply mem_liveNodeList_iff.1
    apply F.keysUniv
    rw [this]
    rfl
  refine ⟨hlive, ?_⟩
  intro q hq
  obtain ⟨qh, qlast, qch, _⟩ := hq
  obtain ⟨lv, hlv, hble⟩ := final_chain_bound F q src 0 qch qh F.src0 dst qlast
  rw [hl] at hlv
  injection hlv with he
  omega

/-- The target is absent from `pred` exactly when there is no live path. -/
theorem pred_none_iff_no_livePath {st : SDNController} {src dst : String}
    (h : inLive st src = true) :
    alookup (predecessorMap (liveNeighbors st) src (bfsFuel st)).2 dst = none ↔
      ∀ p, ¬ livePath st src dst p := by
  have F := bfs_final st src h
  constructor
  · intro hnone p hp
    obtain ⟨ph, plast, pch, _⟩ := hp
    obtain ⟨lv, hlv, _⟩ := final_chain_bound F p src 0 pch ph F.src0 dst plast
    have := F.predKeys dst
    rw [hnone, hlv] at this
    simp at this
  · intro hnop
    cases hcase : alookup (predecessorMap (liveNeighbors st) src (bfsFuel st)).2 dst with
    | none => rfl
    | some vs =>
      exfalso
      have hseen : (alookup (predecessorMap (liveNeighbors st) src (bfsFuel st)).1
          dst).isSome = true := by
        rw [← F.predKeys]
        rw [hcase]
        rfl
      obtain ⟨l, hl⟩ := Option.isSome_iff_exists.1 hseen
      obtain ⟨p, pch, ph, plast, plen, pall⟩ := F.soundSeen dst l hl
      apply hnop p
      refine ⟨ph, plast, pch, ?_⟩
      intro x hx
      exact mem_liveNodeList_iff.1 (F.keysUniv x (pall x hx))

/-- Completeness: every hop-count-shortest live path is enumerated. -/
theorem allShortestPaths_complete {st : SDNController} {src dst : String}
    (h : inLive st src = true) {q : List String}
    (hq : livePath st src dst q)
    (hmin : ∀ r, livePath st src dst r → q.length ≤ r.length) :
    q ∈ allShortestPathsList st src dst := by
  have F := bfs_final st src h
  obtain ⟨qh, qlast, qch, _⟩ := hq
  obtain ⟨l, hl, hble⟩ := final_chain_bound F q src 0 qch qh F.src0 dst qlast
  -- the minimal length is exactly l + 1
  have hlen : q.length = l + 1 := by
    obtain ⟨p, pch, ph, plast, plen, pall⟩ := F.soundSeen dst l hl
    have hplive : livePath st src dst p := by
      refine ⟨ph, plast, pch, ?_⟩
      intro x hx
      exact mem_liveNodeList_iff.1 (F.keysUniv x (pall x hx))
    have := hmin p hplive
    omega
  apply final_complete F qch qh qlast hl hlen
  have hlb := F.levelBound dst l hl
  have hlu := F.lenUniv
  rw [hlen]
  simp only [bfsFuel]
  omega

/-- The enumerated list is nonempty whenever the target was reached. -/
theorem allShortestPaths_ne_nil {st : SDNController} {src dst : String}
    (h : inLive st src = true) {vs : List String}
    (hvs : alookup (predecessorMap (liveNeighbors st) src (bfsFuel st)).2 dst = some vs) :
    allShortestPathsList st src dst ≠ [] := by
  have F := bfs_final st src h
  have hseen : (alookup (predecessorMap (liveNeighbors st) src (bfsFuel st)).1
      dst).isSome = true := by
    rw [← F.predKeys, hvs]
    rfl
  obtain ⟨l, hl⟩ := Option.isSome_iff_exists.1 hseen
  apply buildPaths_ne_nil F (bfsFuel st) l dst hl
  have := F.levelBound dst l hl
  have := F.lenUniv
  simp only [bfsFuel]
  omega

/-! ## `compute_paths` facts -/

theorem pyMinBy_split {α : Type} {f : α → Int} {l : List α} {m : α}
    (h : pyMinBy f l = some m) :
    ∃ l₁ l₂, l = l₁ ++ m :: l₂ ∧ ∀ y ∈ l₁, f m < f y := by
  cases l with
  | nil => simp [pyMinBy] at h
  | cons x xs =>
    simp only [pyMinBy, Option.some_inj] at h
    obtain ⟨l₁, l₂, heq, hlt⟩ := pyMinBy_first f xs x
    rw [h] at heq hlt
    exact ⟨l₁, l₂, heq, hlt⟩

theorem compute_paths_error_of_not_inLive {st : SDNController} {src dst : String}
    {priority : Int} (h : inLive st src = false) :
    compute_paths st src dst priority = .error () := by
  simp [compute_paths, h]

/-- Every path of a successful `compute_paths` result comes from the
shortest-path enumeration (and the source was in the live subgraph). -/
theorem compute_paths_sub {st : SDNController} {src dst : String} {priority : Int}
    {ps : List (List String)} (h : compute_paths st src dst priority = .ok ps) :
    inLive st src = true ∧ ∀ p ∈ ps, p ∈ allShortestPathsList st src dst := by
  by_cases hlive : inLive st src
  · refine ⟨hlive, ?_⟩
    rw [compute_paths, if_pos hlive] at h
    cases hpred : alookup (predecessorMap (liveNeighbors st) src (bfsFuel st)).2 dst with
    | none =>
      rw [hpred] at h
      simp only [Except.ok.injEq] at h
      rw [← h]
      intro p hp
      simp at hp
    | some vs =>
      rw [hpred] at h
      by_cases hpr : priority > 0
      · rw [if_pos hpr] at h
        cases hmin : pyMinBy (path_utilization st) (allShortestPathsList st src dst) with
        | none =>
          rw [hmin] at h
          simp only [Except.ok.injEq] at h
          rw [← h]
          intro p hp
          simp at hp
        | some m =>
          rw [hmin] at h
          simp only [Except.ok.injEq] at h
          rw [← h]
          intro p hp
          simp only [List.mem_singleton] at hp
          subst hp
          exact pyMinBy_mem hmin
      · rw [if_neg hpr] at h
        simp only [Except.ok.injEq] at h
        rw [← h]
        intro p hp
        exact List.take_subset 2 _ hp
  · rw [compute_paths, if_neg hlive] at h
    cases h

/-! ## The reference example topology (used by concrete witnesses) -/

/-- The operations building the example topology from the bottom of
`main.py` (`s1 s2 s3 s4 h1 h2` with the six default links). -/
def demoOps : List Op :=
  [Op.addNode "s1" "switch", Op.addNode "s2" "switch", Op.addNode "s3" "switch",
   Op.addNode "s4" "switch", Op.addNode "h1" "switch", Op.addNode "h2" "switch",
   Op.addLink "s1" "s2" 100, Op.addLink "s1" "s3" 100, Op.addLink "s2" "s4" 100,
   Op.addLink "s3" "s4" 100, Op.addLink "h1" "s1" 100, Op.addLink "h2" "s4" 100]

/-- The controller state holding the example topology. -/
def demoState : SDNController := runOps demoOps

/-! ## Claim C1 -/

/-- C1: for every topology and availability assignment, every path
returned by `compute_paths` uses only links whose `available` flag is
true — each consecutive node pair of each returned path is an
available link. -/
theorem C1_paths_use_only_available_links (st : SDNController) (src dst : String)
    (priority : Int) (ps : List (List String))
    (h : compute_paths st src dst priority = .ok ps) :
    ∀ p ∈ ps, ∀ uv ∈ consecPairs p, isAvailLink st uv.1 uv.2 = true := by
  obtain ⟨hlive, hsub⟩ := compute_paths_sub h
  intro p hp uv huv
  have F := bfs_final st src hlive
  obtain ⟨l, _, hch, _, _, _, _⟩ := buildPaths_sound F (bfsFuel st) dst p (hsub p hp)
  have hadj := isChain_consecPairs hch uv huv
  exact liveNeighbors_availLink hadj

/-- Witness for C1 on the reference six-node topology: concrete links
of the two returned paths are available. -/
theorem C1_witness :
    isAvailLink demoState "h1" "s1" = true ∧
    isAvailLink demoState "s1" "s2" = true ∧
    isAvailLink demoState "s2" "s4" = true ∧
    isAvailLink demoState "s4" "h2" = true ∧
    isAvailLink demoState "s1" "s3" = true := by
  have h := C1_paths_use_only_available_links demoState "h1" "h2" 0
    [["h1", "s1", "s2", "s4", "h2"], ["h1", "s1", "s3", "s4", "h2"]] (by rfl)
  exact ⟨h ["h1", "s1", "s2", "s4", "h2"] (by decide) ("h1", "s1") (by decide),
    h ["h1", "s1", "s2", "s4", "h2"] (by decide) ("s1", "s2") (by decide),
    h ["h1", "s1", "s2", "s4", "h2"] (by decide) ("s2", "s4") (by decide),
    h ["h1", "s1", "s2", "s4", "h2"] (by decide) ("s4", "h2") (by decide),
    h ["h1", "s1", "s3", "s4", "h2"] (by decide) ("s1", "s3") (by decide)⟩

/-! ## Claim C2 -/

/-- C2: with positive priority and at least one live path, the result
is a single path that is hop-count shortest, has minimal total
utilization among all hop-count-shortest live paths, and is the first
minimal element in the order the shortest-path search produced. -/
theorem C2_priority_selects_first_least_utilized_shortest (st : SDNController)
    (src dst : String) (priority : Int) (hpr : 0 < priority)
    (hex : ∃ p, livePath st src dst p) :
    ∃ m, compute_paths st src dst priority = .ok [m] ∧
      livePath st src dst m ∧
      (∀ q, livePath st src dst q → m.length ≤ q.length) ∧
      (∀ q, livePath st src dst q →
        (∀ r, livePath st src dst r → q.length ≤ r.length) →
        path_utilization st m ≤ path_utilization st q) ∧
      ∃ l₁ l₂, allShortestPathsList st src dst = l₁ ++ m :: l₂ ∧
        ∀ q ∈ l₁, path_utilization st m < path_utilization st q := by
  obtain ⟨p₀, hp₀⟩ := hex
  have hlive := livePath_src_inLive hp₀
  have hpred : ∃ vs, alookup (predecessorMap (liveNeighbors st) src (bfsFuel st)).2
      dst = some vs := by
    cases hcase : alookup (predecessorMap (liveNeighbors st) src (bfsFuel st)).2 dst with
    | none => exact absurd hp₀ ((pred_none_iff_no_livePath hlive).1 hcase p₀)
    | some vs => exact ⟨vs, rfl⟩
  obtain ⟨vs, hvs⟩ := hpred
  have hne := allShortestPaths_ne_nil hlive hvs
  have hmin : ∃ m, pyMinBy (path_utilization st) (allShortestPathsList st src dst)
      = some m := by
    cases hcase : allShortestPathsList st src dst with
    | nil => exact absurd hcase hne
    | cons x xs => exact ⟨_, rfl⟩
  obtain ⟨m, hm⟩ := hmin
  have hok : compute_paths st src dst priority = .ok [m] := by
    rw [compute_paths, if_pos hlive, hvs]
    simp only [if_pos (by omega : priority > 0), hm]
  have hmem := pyMinBy_mem hm
  obtain ⟨hmlive, hmshort⟩ := allShortestPaths_sound hlive m hmem
  refine ⟨m, hok, hmlive, hmshort, ?_, pyMinBy_split hm⟩
  intro q hq hqmin
  have hqmem := allShortestPaths_complete hlive hq hqmin
  exact pyMinBy_le hm q hqmem

/-- Witness for C2 on the reference topology with priority 1: the
first enumerated shortest path is selected, it is live, and it is no
longer than the other shortest path. -/
theorem C2_witness :
    compute_paths demoState "h1" "h2" 1 = .ok [["h1", "s1", "s2", "s4", "h2"]] ∧
    livePath demoState "h1" "h2" ["h1", "s1", "s2", "s4", "h2"] ∧
    (["h1", "s1", "s2", "s4", "h2"] : List String).length ≤
      (["h1", "s1", "s3", "s4", "h2"] : List String).length := by
  obtain ⟨m, h1, h2, h3, _, _⟩ := C2_priority_selects_first_least_utilized_shortest
    demoState "h1" "h2" 1 (by decide) ⟨["h1", "s1", "s2", "s4", "h2"], by decide⟩
  have hm : m = ["h1", "s1", "s2", "s4", "h2"] := by
    have hcmp : (Except.ok [m] : Except Unit (List (List String))) =
        .ok [["h1", "s1", "s2", "s4", "h2"]] := by
      rw [← h1]
      rfl
    injection hcmp with h'
    injection h' with h''
  subst hm
  exact ⟨h1, h2, h3 ["h1", "s1", "s3", "s4", "h2"] (by decide)⟩

/-! ## Claim C3 -/

/-- C3: with priority 0 the result is the first two enumerated
shortest paths — at most two, each a hop-count-shortest live path, in
enumeration order with no utilization-based reordering. -/
theorem C3_priority_zero_two_shortest (st : SDNController) (src dst : String)
    (ps : List (List String)) (h : compute_paths st src dst 0 = .ok ps) :
    ps.length ≤ 2 ∧ ps = (allShortestPathsList st src dst).take 2 ∧
      ∀ p ∈ ps, livePath st src dst p ∧
        ∀ q, livePath st src dst q → p.length ≤ q.length := by
  obtain ⟨hlive, hsub⟩ := compute_paths_sub h
  rw [compute_paths, if_pos hlive] at h
  have htake : ps = (allShortestPathsList st src dst).take 2 := by
    cases hpred : alookup (predecessorMap (liveNeighbors st) src (bfsFuel st)).2 dst with
    | none =>
      rw [hpred] at h
      simp only [Except.ok.injEq] at h
      have hdsrc : ¬ dst = src := by
        intro hcon
        have F := bfs_final st src hlive
        have hs : (alookup (predecessorMap (liveNeighbors st) src (bfsFuel st)).1
            src).isSome = true := by
          rw [F.src0]
          rfl
        have := F.predKeys src
        rw [hcon] at hpred
        rw [hpred] at this
        rw [hs] at this
        cases this
      have hpred2 : alookup (predecessorMap (liveNeighbors st) src
          ((liveNodeList st).length + 1)).2 dst = none := hpred
      have hnil : allShortestPathsList st src dst = [] := by
        rw [allShortestPathsList]
        rw [show bfsFuel st = (liveNodeList st).length + 1 from rfl]
        simp [buildPaths, hdsrc, hpred2]
      rw [hnil, ← h]
      rfl
    | some vs =>
      rw [hpred] at h
      rw [if_neg (by omega : ¬ (0 : Int) > 0)] at h
      simp only [Except.ok.injEq] at h
      rw [← h]
  refine ⟨by rw [htake]; simp [List.length_take], htake, ?_⟩
  intro p hp
  exact allShortestPaths_sound hlive p (hsub p hp)

/-- Witness for C3 on the reference topology: both shortest paths are
returned, they are the first two enumerated, and each is live. -/
theorem C3_witness :
    ([["h1", "s1", "s2", "s4", "h2"], ["h1", "s1", "s3", "s4", "h2"]].length ≤ 2) ∧
    [["h1", "s1", "s2", "s4", "h2"], ["h1", "s1", "s3", "s4", "h2"]] =
      (allShortestPathsList demoState "h1" "h2").take 2 ∧
    livePath demoState "h1" "h2" ["h1", "s1", "s2", "s4", "h2"] ∧
    livePath demoState "h1" "h2" ["h1", "s1", "s3", "s4", "h2"] := by
  obtain ⟨h1, h2, h3⟩ := C3_priority_zero_two_shortest demoState "h1" "h2"
    [["h1", "s1", "s2", "s4", "h2"], ["h1", "s1", "s3", "s4", "h2"]] (by rfl)
  exact ⟨h1, h2, (h3 ["h1", "s1", "s2", "s4", "h2"] (by decide)).1,
    (h3 ["h1", "s1", "s3", "s4", "h2"] (by decide)).1⟩

/-! ## Claims C5 and C6 -/

/-- C5: with no path in the live subgraph, `inject_flow` performs no
mutation at all — the state is unchanged, no flow record is appended,
and no identifier is returned (either the `None`/print branch or the
escaping `NodeNotFound` exception). -/
theorem C5_inject_flow_no_path_no_mutation (st : SDNController) (src dst : String)
    (priority bandwidth : Int) (hnp : ∀ p, ¬ livePath st src dst p) :
    (inject_flow st src dst priority bandwidth = .error () ∨
      inject_flow st src dst priority bandwidth = .ok (none, st)) ∧
    applyOp st (.injectFlow src dst priority bandwidth) = st := by
  cases hlive : inLive st src with
  | false =>
    have herr : compute_paths st src dst priority = .error () :=
      compute_paths_error_of_not_inLive hlive
    have hinj : inject_flow st src dst priority bandwidth = .error () := by
      rw [inject_flow, herr]
    refine ⟨Or.inl hinj, ?_⟩
    rw [applyOp, hinj]
  | true =>
    have hpred := (pred_none_iff_no_livePath hlive).2 hnp
    have hok : compute_paths st src dst priority = .ok [] := by
      rw [compute_paths, if_pos hlive, hpred]
    have hinj : inject_flow st src dst priority bandwidth = .ok (none, st) := by
      rw [inject_flow, hok]
    refine ⟨Or.inr hinj, ?_⟩
    rw [applyOp, hinj]

/-- Witness for C5: a two-node topology and an unknown destination. -/
theorem C5_witness :
    (inject_flow (runOps [Op.addLink "a" "b" 100]) "a" "zz" 0 10 = .error () ∨
      inject_flow (runOps [Op.addLink "a" "b" 100]) "a" "zz" 0 10 =
        .ok (none, runOps [Op.addLink "a" "b" 100])) ∧
    applyOp (runOps [Op.addLink "a" "b" 100]) (.injectFlow "a" "zz" 0 10) =
      runOps [Op.addLink "a" "b" 100] :=
  C5_inject_flow_no_path_no_mutation (runOps [Op.addLink "a" "b" 100]) "a" "zz" 0 10
    ((pred_none_iff_no_livePath (by rfl)).1 (by rfl))

/-- C6 counterexample: node `a` exists in the topology but has no
links, so it is absent from the live subgraph; `compute_paths` then
raises the (uncaught) `NodeNotFound` exception instead of returning
the empty sequence the claim promises. -/
theorem C6_counterexample :
    compute_paths (runOps [Op.addNode "a" "switch", Op.addLink "b" "c" 100])
      "a" "c" 0 = Except.error () ∧
    ∀ l, compute_paths (runOps [Op.addNode "a" "switch", Op.addLink "b" "c" 100])
      "a" "c" 0 ≠ Except.ok l := by
  have herr : compute_paths (runOps [Op.addNode "a" "switch", Op.addLink "b" "c" 100])
      "a" "c" 0 = Except.error () := by rfl
  refine ⟨herr, ?_⟩
  intro l h
  rw [herr] at h
  cases h

/-- C6 (amended): `compute_paths` returns the empty sequence when the
source is in the live subgraph but the destination is absent or
unreachable; when the source itself is absent from the live subgraph
the `NodeNotFound` exception escapes (only `NetworkXNoPath` is
caught). -/
theorem C6_no_path_empty_or_error (st : SDNController) (src dst : String)
    (priority : Int) :
    (inLive st src = false → compute_paths st src dst priority = .error ()) ∧
    (inLive st src = true → (∀ p, ¬ livePath st src dst p) →
      compute_paths st src dst priority = .ok []) := by
  constructor
  · intro hlive
    exact compute_paths_error_of_not_inLive hlive
  · intro hlive hnp
    have hpred := (pred_none_iff_no_livePath hlive).2 hnp
    rw [compute_paths, if_pos hlive, hpred]

/-- Witness for C6 (amended): both outcomes at concrete states. -/
theorem C6_witness :
    compute_paths (runOps [Op.addNode "a" "switch", Op.addLink "b" "c" 100])
      "x" "c" 0 = .error () ∧
    compute_paths (runOps [Op.addLink "a" "b" 100]) "b" "zz" 2 = .ok [] :=
  ⟨(C6_no_path_empty_or_error (runOps [Op.addNode "a" "switch",
      Op.addLink "b" "c" 100]) "x" "c" 0).1 (by rfl),
   (C6_no_path_empty_or_error (runOps [Op.addLink "a" "b" 100]) "b" "zz" 2).2
     (by rfl) ((pred_none_iff_no_livePath (by rfl)).1 (by rfl))⟩

/-! ## `inject_flow` characterization -/

theorem inject_flow_ok_none {st st' : SDNController} {src dst : String}
    {priority bandwidth : Int}
    (h : inject_flow st src dst priority bandwidth = .ok (none, st')) : st' = st := by
  rw [inject_flow] at h
  cases hc : compute_paths st src dst priority with
  | error e => rw [hc] at h; cases h
  | ok ps =>
    rw [hc] at h
    cases ps with
    | nil =>
      simp only [Except.ok.injEq, Prod.mk.injEq] at h
      exact h.2.symm
    | cons p rest => simp at h

theorem inject_flow_ok_some {st st' : SDNController} {src dst : String}
    {priority bandwidth : Int} {fid : String}
    (h : inject_flow st src dst priority bandwidth = .ok (some fid, st')) :
    ∃ primary rest, compute_paths st src dst priority = .ok (primary :: rest) ∧
      fid = mkFlowId src dst st.active_flows.length ∧
      st'.nodes = st.nodes ∧
      st'.edges = addUtilOnPath st.edges primary bandwidth ∧
      st'.flow_tables = (match (if priority > 1 then rest.head? else none) with
        | some bp => installOnPath (installOnPath st.flow_tables fid primary) fid bp
        | none => installOnPath st.flow_tables fid primary) ∧
      st'.active_flows = st.active_flows ++
        [⟨fid, src, dst, primary, (if priority > 1 then rest.head? else none),
          bandwidth, priority⟩] := by
  rw [inject_flow] at h
  cases hc : compute_paths st src dst priority with
  | error e => rw [hc] at h; cases h
  | ok ps =>
    rw [hc] at h
    cases ps with
    | nil => simp at h
    | cons p rest =>
      simp only [Except.ok.injEq, Prod.mk.injEq, Option.some_inj] at h
      obtain ⟨hfid, hst⟩ := h
      subst hfid
      refine ⟨p, rest, rfl, rfl, ?_, ?_, ?_, ?_⟩ <;> rw [← hst]

/-- With positive priority `compute_paths` returns at most one path,
so `len(paths) > 1` never holds and no backup path is ever selected. -/
theorem compute_paths_pos_at_most_one {st : SDNController} {src dst : String}
    {priority : Int} {ps : List (List String)} (hpr : 0 < priority)
    (h : compute_paths st src dst priority = .ok ps) : ps.length ≤ 1 := by
  by_cases hlive : inLive st src
  · rw [compute_paths, if_pos hlive] at h
    cases hpred : alookup (predecessorMap (liveNeighbors st) src (bfsFuel st)).2 dst with
    | none =>
      rw [hpred] at h
      simp only [Except.ok.injEq] at h
      rw [← h]
      simp
    | some vs =>
      rw [hpred, if_pos (by omega : priority > 0)] at h
      cases hmin : pyMinBy (path_utilization st) (allShortestPathsList st src dst) with
      | none =>
        rw [hmin] at h
        simp only [Except.ok.injEq] at h
        rw [← h]
        simp
      | some m =>
        rw [hmin] at h
        simp only [Except.ok.injEq] at h
        rw [← h]
        simp
  · rw [compute_paths, if_neg hlive] at h
    cases h

/-! ## The reachable-state invariant -/

/-- The shape of a recorded path: it runs from the flow's source to
its destination, is nonempty, and has at least two nodes when the
endpoints differ. -/
def goodShape (src dst : String) (p : List String) : Prop :=
  p.head? = some src ∧ p.getLast? = some dst ∧ 1 ≤ p.length ∧
    (src ≠ dst → 2 ≤ p.length)

theorem goodShape_of_livePath {st : SDNController} {src dst : String}
    {p : List String} (h : livePath st src dst p) : goodShape src dst p := by
  obtain ⟨hh, hlast, _, _⟩ := h
  refine ⟨hh, hlast, ?_, ?_⟩
  · cases p with
    | nil => cases hh
    | cons a t => simp
  · intro hne
    cases p with
    | nil => cases hh
    | cons a t =>
      cases t with
      | nil =>
        exfalso
        simp only [List.head?_cons, Option.some_inj] at hh
        simp only [List.getLast?_singleton, Option.some_inj] at hlast
        rw [← hh, ← hlast] at hne
        exact hne rfl
      | cons b t' => simp

/-- Invariant of every reachable controller state: flow identifiers
carry their index, recorded paths are well-shaped, and every
flow-table key's identifier was minted for some existing flow. -/
structure Inv (st : SDNController) : Prop where
  ids : ∀ (i : Nat) (f : FlowRecord), st.active_flows[i]? = some f →
    f.id = mkFlowId f.src f.dst i
  shapes : ∀ f ∈ st.active_flows, goodShape f.src f.dst f.primary_path ∧
    ∀ bp ∈ f.backup_path, goodShape f.src f.dst bp
  tableIds : ∀ kv ∈ st.flow_tables, ∃ s d n, n < st.active_flows.length ∧
    kv.1.2 = mkFlowId s d n

theorem Inv_init : Inv initController := by
  refine ⟨?_, ?_, ?_⟩
  · intro i f h
    simp [initController] at h
  · intro f hf
    simp [initController] at hf
  · intro kv hkv
    simp [initController] at hkv

theorem install_flow_mem {ft : List ((String × String) × Action)}
    {sw fl : String} {act : Action} :
    ∀ kv ∈ install_flow ft sw fl act, kv ∈ ft ∨ kv.1 = (sw, fl) := by
  induction ft with
  | nil =>
    intro kv hkv
    simp only [install_flow, List.mem_singleton] at hkv
    right
    rw [hkv]
  | cons hd tl ih =>
    intro kv hkv
    obtain ⟨k, a⟩ := hd
    rw [install_flow] at hkv
    by_cases hk : k = (sw, fl)
    · rw [if_pos hk] at hkv
      rcases List.mem_cons.1 hkv with h1 | h2
      · right; rw [h1, hk]
      · left; exact List.mem_cons_of_mem _ h2
    · rw [if_neg hk] at hkv
      rcases List.mem_cons.1 hkv with h1 | h2
      · left; rw [h1]; exact List.mem_cons_self _ _
      · rcases ih kv h2 with h | h
        · left; exact List.mem_cons_of_mem _ h
        · right; exact h

theorem installOnPath_mem {ft : List ((String × String) × Action)} {fid : String}
    {p : List String} :
    ∀ kv ∈ installOnPath ft fid p, kv ∈ ft ∨ kv.1.2 = fid := by
  rw [installOnPath]
  generalize interior p = sws
  induction sws generalizing ft with
  | nil => intro kv hkv; exact Or.inl hkv
  | cons sw rest ih =>
    intro kv hkv
    simp only [List.foldl_cons] at hkv
    rcases ih kv hkv with h | h
    · rcases install_flow_mem kv h with h2 | h2
      · exact Or.inl h2
      · right; rw [h2]
    · exact Or.inr h

theorem alookup_install_flow_ne {ft : List ((String × String) × Action)}
    {sw fl : String} {act : Action} {k : String × String} (hk : k ≠ (sw, fl)) :
    alookup (install_flow ft sw fl act) k = alookup ft k := by
  induction ft with
  | nil =>
    simp only [install_flow, alookup]
    rw [if_neg (fun hcon => hk hcon.symm)]
  | cons hd tl ih =>
    obtain ⟨k', a⟩ := hd
    rw [install_flow]
    by_cases hk' : k' = (sw, fl)
    · rw [if_pos hk']
      simp only [alookup]
      rw [if_neg (by rw [hk']; exact fun hcon => hk hcon.symm),
        if_neg (by rw [hk']; exact fun hcon => hk hcon.symm)]
    · rw [if_neg hk']
      simp only [alookup]
      by_cases hkk : k' = k
      · rw [if_pos hkk, if_pos hkk]
      · rw [if_neg hkk, if_neg hkk]
        exact ih

theorem alookup_installOnPath_ne {ft : List ((String × String) × Action)}
    {fid : String} {p : List String} {k : String × String} (hk : k.2 ≠ fid) :
    alookup (installOnPath ft fid p) k = alookup ft k := by
  rw [installOnPath]
  generalize interior p = sws
  induction sws generalizing ft with
  | nil => rfl
  | cons sw rest ih =>
    simp only [List.foldl_cons]
    rw [ih]
    exact alookup_install_flow_ne (fun hcon => hk (by rw [hcon]))

theorem Inv_preserved (st : SDNController) (op : Op) (inv : Inv st) :
    Inv (applyOp st op) := by
  cases op with
  | addNode id ty => exact ⟨inv.ids, inv.shapes, inv.tableIds⟩
  | addLink a b bw => exact ⟨inv.ids, inv.shapes, inv.tableIds⟩
  | removeLink a b => exact ⟨inv.ids, inv.shapes, inv.tableIds⟩
  | restoreLink a b => exact ⟨inv.ids, inv.shapes, inv.tableIds⟩
  | injectFlow src dst priority bandwidth =>
    rw [applyOp]
    cases hinj : inject_flow st src dst priority bandwidth with
    | error e => exact inv
    | ok res =>
      obtain ⟨opt, st'⟩ := res
      cases opt with
      | none =>
        show Inv st'
        rw [inject_flow_ok_none hinj]
        exact inv
      | some fid =>
        show Inv st'
        obtain ⟨primary, rest, hcomp, hfid, hnodes, hedges, hft, hflows⟩ :=
          inject_flow_ok_some hinj
        obtain ⟨hlive, hsub⟩ := compute_paths_sub hcomp
        have hlivepaths : ∀ p ∈ (primary :: rest), livePath st src dst p := by
          intro p hp
          exact (allShortestPaths_sound hlive p (hsub p hp)).1
        refine ⟨?_, ?_, ?_⟩
        · intro i f h
          rw [hflows] at h
          by_cases hi : i < st.active_flows.length
          · rw [List.getElem?_append_left hi] at h
            exact inv.ids i f h
          · have hi2 : i < st.active_flows.length + 1 := by
              rcases List.getElem?_eq_some_iff.1 h with ⟨hlt, _⟩
              simpa using hlt
            have hieq : i = st.active_flows.length := by omega
            subst hieq
            rw [List.getElem?_concat_length] at h
            injection h with h'
            rw [← h', hfid]
        · intro f hf
          rw [hflows] at hf
          rcases List.mem_append.1 hf with h1 | h2
          · exact inv.shapes f h1
          · simp only [List.mem_singleton] at h2
            subst h2
            constructor
            · exact goodShape_of_livePath
                (hlivepaths primary (List.mem_cons_self _ _))
            · intro bp hbp
              simp only at hbp
              by_cases hpr : priority > 1
              · rw [if_pos hpr] at hbp
                cases rest with
                | nil => cases hbp
                | cons r rest' =>
                  rw [List.head?_cons] at hbp
                  injection hbp with hbp'
                  rw [← hbp']
                  exact goodShape_of_livePath
                    (hlivepaths r (List.mem_cons_of_mem _ (List.mem_cons_self _ _)))
              · rw [if_neg hpr] at hbp
                cases hbp
        · intro kv hkv
          rw [hft] at hkv
          rw [hflows]
          simp only [List.length_append, List.length_singleton]
          have hnew : ∀ kv : (String × String) × Action, kv.1.2 = fid →
              ∃ s d n, n < st.active_flows.length + 1 ∧ kv.1.2 = mkFlowId s d n := by
            intro kv hkv2
            exact ⟨src, dst, st.active_flows.length, by omega, by rw [hkv2, hfid]⟩
          have hold : kv ∈ st.flow_tables →
              ∃ s d n, n < st.active_flows.length + 1 ∧ kv.1.2 = mkFlowId s d n := by
            intro hmem
            obtain ⟨s, d, n, hn, hk⟩ := inv.tableIds kv hmem
            exact ⟨s, d, n, by omega, hk⟩
          cases hbp : (if priority > 1 then rest.head? else none) with
          | none =>
            rw [hbp] at hkv
            rcases installOnPath_mem kv hkv with h | h
            · exact hold h
            · exact hnew kv h
          | some bp =>
            rw [hbp] at hkv
            rcases installOnPath_mem kv hkv with h | h
            · rcases installOnPath_mem kv h with h2 | h2
              · exact hold h2
              · exact hnew kv h2
            · exact hnew kv h

theorem Inv_runOps (ops : List Op) : Inv (runOps ops) := by
  rw [runOps]
  have : ∀ st, Inv st → Inv (ops.foldl applyOp st) := by
    induction ops with
    | nil => intro st h; exact h
    | cons op rest ih =>
      intro st h
      exact ih (applyOp st op) (Inv_preserved st op h)
  exact this initController Inv_init

/-! ## Claim C7 -/

/-- C7: the identifier of each successful injection is
`"{src}-{dst}-{n}"` where `n` counts the previously recorded
(successful) flows — each record's index is its identifier's suffix,
so failed attempts (which append nothing) never advance `n` — and all
identifiers in the active-flow list are pairwise distinct. -/
theorem C7_flow_id_format_and_unique (ops : List Op) :
    (∀ (src dst : String) (priority bandwidth : Int) (fid : String)
      (st' : SDNController),
      inject_flow (runOps ops) src dst priority bandwidth = .ok (some fid, st') →
      fid = mkFlowId src dst (runOps ops).active_flows.length) ∧
    (∀ (i : Nat) (f : FlowRecord), (runOps ops).active_flows[i]? = some f →
      f.id = mkFlowId f.src f.dst i) ∧
    ((runOps ops).active_flows.map FlowRecord.id).Nodup := by
  have inv := Inv_runOps ops
  refine ⟨?_, inv.ids, ?_⟩
  · intro src dst priority bandwidth fid st' h
    obtain ⟨p, rest, _, hfid, _⟩ := inject_flow_ok_some h
    exact hfid
  · rw [List.nodup_iff_injective_get]
    intro i j heq
    obtain ⟨i, hi⟩ := i
    obtain ⟨j, hj⟩ := j
    have hi' : i < (runOps ops).active_flows.length := by simpa using hi
    have hj' : j < (runOps ops).active_flows.length := by simpa using hj
    simp only [List.get_eq_getElem, List.getElem_map] at heq
    have hfi := inv.ids i ((runOps ops).active_flows[i])
      (List.getElem?_eq_getElem hi')
    have hfj := inv.ids j ((runOps ops).active_flows[j])
      (List.getElem?_eq_getElem hj')
    rw [hfi, hfj] at heq
    have := mkFlowId_inj_index heq
    exact Fin.ext this

/-- Witness for C7: two successful injections, then the format of a
third. -/
theorem C7_witness :
    "a-b-2" = mkFlowId "a" "b" (runOps [Op.addLink "a" "b" 100,
      Op.injectFlow "a" "b" 0 10, Op.injectFlow "b" "a" 1 5]).active_flows.length ∧
    ((runOps [Op.addLink "a" "b" 100, Op.injectFlow "a" "b" 0 10,
      Op.injectFlow "b" "a" 1 5]).active_flows.map FlowRecord.id).Nodup :=
  ⟨(C7_flow_id_format_and_unique [Op.addLink "a" "b" 100,
      Op.injectFlow "a" "b" 0 10, Op.injectFlow "b" "a" 1 5]).1 "a" "b" 2 7 "a-b-2"
      (applyOp (runOps [Op.addLink "a" "b" 100, Op.injectFlow "a" "b" 0 10,
        Op.injectFlow "b" "a" 1 5]) (.injectFlow "a" "b" 2 7)) (by rfl),
   (C7_flow_id_format_and_unique [Op.addLink "a" "b" 100,
      Op.injectFlow "a" "b" 0 10, Op.injectFlow "b" "a" 1 5]).2.2⟩

/-! ## Claim C9 -/

/-- C9: a flow-table entry, once installed under its
`(switch, flow-id)` key, is never mutated or deleted by any subsequent
operation: its stored action record survives every public operation
unchanged.  (Within the installing call itself no key is written twice
either, because with `priority > 1` `compute_paths` already returns a
single path, so no backup installation loop ever runs.) -/
theorem C9_flow_table_entries_stable (ops : List Op) (op : Op)
    (k : String × String) (act : Action)
    (h : alookup (runOps ops).flow_tables k = some act) :
    alookup (applyOp (runOps ops) op).flow_tables k = some act := by
  have inv := Inv_runOps ops
  cases op with
  | addNode id ty => exact h
  | addLink a b bw => exact h
  | removeLink a b => exact h
  | restoreLink a b => exact h
  | injectFlow src dst priority bandwidth =>
    rw [applyOp]
    cases hinj : inject_flow (runOps ops) src dst priority bandwidth with
    | error e => exact h
    | ok res =>
      obtain ⟨opt, st'⟩ := res
      cases opt with
      | none =>
        show alookup st'.flow_tables k = some act
        rw [inject_flow_ok_none hinj]
        exact h
      | some fid =>
        show alookup st'.flow_tables k = some act
        obtain ⟨primary, rest, hcomp, hfid, _, _, hft, _⟩ := inject_flow_ok_some hinj
        obtain ⟨s, d, n, hn, hk⟩ := inv.tableIds (k, act) (alookup_mem h)
        have hkne : k.2 ≠ fid := by
          simp only at hk
          rw [hk, hfid]
          intro hcon
          have := mkFlowId_inj_index hcon
          omega
        rw [hft]
        cases hbp : (if priority > 1 then rest.head? else none) with
        | none =>
          rw [alookup_installOnPath_ne hkne]
          exact h
        | some bp =>
          rw [alookup_installOnPath_ne hkne, alookup_installOnPath_ne hkne]
          exact h

/-- Witness for C9: an installed entry survives a later operation. -/
theorem C9_witness :
    alookup (applyOp (runOps [Op.addLink "a" "b" 100, Op.addLink "b" "c" 100,
        Op.injectFlow "a" "c" 0 10]) (.injectFlow "a" "c" 1 5)).flow_tables
      ("b", "a-c-0") = some ⟨"forward", ["a", "b", "c"]⟩ :=
  C9_flow_table_entries_stable [Op.addLink "a" "b" 100, Op.addLink "b" "c" 100,
    Op.injectFlow "a" "c" 0 10] (.injectFlow "a" "c" 1 5) ("b", "a-c-0")
    ⟨"forward", ["a", "b", "c"]⟩ (by rfl)

/-! ## Claim C10 -/

/-- C10 counterexample: injecting a flow whose source equals its
destination (with the endpoint in the live subgraph) records a primary
path of length 1 — `[["a"]]` — violating the claimed minimum length
of 2. -/
theorem C10_counterexample :
    ((runOps [Op.addLink "a" "b" 100, Op.injectFlow "a" "a" 0 10]).active_flows.map
      (fun f => f.primary_path)) = [["a"]] := by rfl

/-- C10 (amended): every recorded primary path runs from the flow's
source to its destination and is nonempty; it has length at least 2
whenever source and destination differ (a source-equals-destination
injection records the single-node path `[src]`); a backup path, when
present, has the same shape. -/
theorem C10_flow_record_path_shape (ops : List Op) (f : FlowRecord)
    (h : f ∈ (runOps ops).active_flows) :
    (f.primary_path.head? = some f.src ∧ f.primary_path.getLast? = some f.dst ∧
      1 ≤ f.primary_path.length ∧ (f.src ≠ f.dst → 2 ≤ f.primary_path.length)) ∧
    ∀ bp ∈ f.backup_path, bp.head? = some f.src ∧ bp.getLast? = some f.dst ∧
      1 ≤ bp.length ∧ (f.src ≠ f.dst → 2 ≤ bp.length) := by
  obtain ⟨h1, h2⟩ := (Inv_runOps ops).shapes f h
  exact ⟨h1, h2⟩

/-- Witness for C10 (amended) on a one-link injection. -/
theorem C10_witness :
    (["a", "b"] : List String).head? = some "a" ∧
    (["a", "b"] : List String).getLast? = some "b" ∧
    1 ≤ (["a", "b"] : List String).length ∧
    2 ≤ (["a", "b"] : List String).length := by
  obtain ⟨⟨w, x, y, z⟩, _⟩ := C10_flow_record_path_shape
    [Op.addLink "a" "b" 100, Op.injectFlow "a" "b" 0 10]
    ⟨"a-b-0", "a", "b", ["a", "b"], none, 10, 0⟩ (by decide)
  exact ⟨w, x, y, z (by decide)⟩

/-! ## Claim C4 -/

/-- C4: evaluation at the failing input.  On the reference topology
two hop-count-shortest paths exist between `h1` and `h2`, yet a
priority-2 injection records no backup path (`compute_paths` with
positive priority already truncates to a single path, so
`len(paths) > 1` is never true in `inject_flow`); flow-table entries
appear only on the primary path's interior switches and only the
primary path's links gain utilization. -/
theorem C4_backup_never_selected :
    (allShortestPathsList demoState "h1" "h2").length = 2 ∧
    ((runOps (demoOps ++ [Op.injectFlow "h1" "h2" 2 10])).active_flows.map
      (fun f => (f.id, f.priority, f.backup_path))) =
      [("h1-h2-0", (2 : Int), (none : Option (List String)))] ∧
    ((runOps (demoOps ++ [Op.injectFlow "h1" "h2" 2 10])).flow_tables.map
      Prod.fst) = [("s1", "h1-h2-0"), ("s2", "h1-h2-0"), ("s4", "h1-h2-0")] ∧
    ((runOps (demoOps ++ [Op.injectFlow "h1" "h2" 2 10])).edges.map
      (fun e => (e.n1, e.n2, e.data.utilization))) =
      [("s1", "s2", (10 : Int)), ("s1", "s3", 0), ("s2", "s4", 10),
       ("s3", "s4", 0), ("h1", "s1", 10), ("h2", "s4", 10)] :=
  ⟨by rfl, by rfl, by rfl, by rfl⟩

/-! ## Claim C8 -/

theorem edgeMatches_swap {e : Edge} {a b : String} :
    edgeMatches e a b = edgeMatches e b a := by
  simp only [edgeMatches]
  by_cases h1 : e.n1 = a ∧ e.n2 = b <;> by_cases h2 : e.n1 = b ∧ e.n2 = a <;>
    simp [h1, h2]

theorem findEdge_setEdge (es : List Edge) (a b : String) (d : LinkData) :
    ∃ e, findEdge (setEdge es a b d) a b = some e ∧
      edgeMatches e a b = true ∧ e.data = d := by
  induction es with
  | nil =>
    refine ⟨⟨a, b, d⟩, ?_, ?_, rfl⟩
    · simp [setEdge, findEdge, edgeMatches]
    · simp [edgeMatches]
  | cons e es ih =>
    by_cases hm : edgeMatches e a b
    · refine ⟨⟨e.n1, e.n2, d⟩, ?_, ?_, rfl⟩
      · rw [setEdge]
        rw [if_pos hm]
        rw [findEdge]
        rw [if_pos (by simpa [edgeMatches] using hm)]
      · simpa [edgeMatches] using hm
    · obtain ⟨e', h1, h2, h3⟩ := ih
      refine ⟨e', ?_, h2, h3⟩
      rw [setEdge, if_neg hm, findEdge, if_neg hm]
      exact h1

theorem setEdge_length (es : List Edge) (a b : String) (d : LinkData) :
    (setEdge es a b d).length =
      if (findEdge es a b).isSome then es.length else es.length + 1 := by
  induction es with
  | nil => simp [setEdge, findEdge]
  | cons e es ih =>
    by_cases hm : edgeMatches e a b
    · rw [setEdge, if_pos hm, findEdge, if_pos hm]
      simp
    · rw [setEdge, if_neg hm, findEdge, if_neg hm]
      simp only [List.length_cons, ih]
      by_cases h : (findEdge es a b).isSome <;> simp [h]

theorem contains_iff_mem {l : List String} {x : String} :
    l.contains x = true ↔ x ∈ l := List.elem_iff

theorem ensureNode_keeps {ns : List (String × Option String)} {x : String}
    {t : Option String} (x' : String) (h : alookup ns x = some t) :
    alookup (ensureNode ns x') x = some t := by
  rw [ensureNode]
  by_cases hc : (ns.map Prod.fst).contains x'
  · rw [if_pos hc]
    exact h
  · rw [if_neg hc]
    exact alookup_append_left _ h

theorem ensureNode_some {ns : List (String × Option String)} (x : String) :
    (alookup (ensureNode ns x) x).isSome = true := by
  rw [ensureNode]
  by_cases hc : (ns.map Prod.fst).contains x
  · rw [if_pos hc]
    exact alookup_isSome_iff.2 (contains_iff_mem.1 hc)
  · rw [if_neg hc]
    have hnm : x ∉ ns.map Prod.fst := fun hmem => hc (contains_iff_mem.2 hmem)
    rw [alookup_append_right _ (alookup_eq_none _ _ hnm)]
    simp [alookup]

theorem ensureNode_new {ns : List (String × Option String)} {x : String}
    (h : alookup ns x = none) : alookup (ensureNode ns x) x = some none := by
  rw [ensureNode]
  have hnm : x ∉ ns.map Prod.fst := alookup_none_not_mem h
  rw [if_neg (fun hc => hnm (contains_iff_mem.1 hc))]
  rw [alookup_append_right _ h]
  simp [alookup]

/-- C8 counterexample: `add_link` on a fresh controller creates node
`a`, but with an empty attribute dictionary — no `type` attribute at
all, in particular not `'switch'` as the claim asserts. -/
theorem C8_counterexample :
    alookup (runOps [Op.addLink "a" "b" 100]).nodes "a" = some none ∧
    alookup (runOps [Op.addLink "a" "b" 100]).nodes "a" ≠ some (some "switch") := by
  refine ⟨by rfl, ?_⟩
  intro h
  have h2 : (some (none : Option String)) = some (some "switch") := by
    rw [← h]
    rfl
  simp at h2

/-- C8 (amended): `add_link(a, b, bandwidth)` makes the link `{a, b}`
exist with the given bandwidth, utilization 0 and availability true,
overwriting (not duplicating) any prior link of the same unordered
pair; an endpoint absent beforehand is auto-created as a node with no
`type` attribute (not as `'switch'`), and existing nodes keep their
attributes. -/
theorem C8_add_link_spec (st : SDNController) (a b : String) (bandwidth : Int) :
    (∃ e, findEdge (add_link st a b bandwidth).edges a b = some e ∧
      edgeMatches e a b = true ∧ e.data = ⟨bandwidth, 0, true⟩) ∧
    (add_link st a b bandwidth).edges.length =
      (if (findEdge st.edges a b).isSome then st.edges.length
       else st.edges.length + 1) ∧
    (alookup (add_link st a b bandwidth).nodes a).isSome = true ∧
    (alookup (add_link st a b bandwidth).nodes b).isSome = true ∧
    (alookup st.nodes a = none → b ≠ a →
      alookup (add_link st a b bandwidth).nodes a = some none) ∧
    (alookup st.nodes b = none →
      alookup (add_link st a b bandwidth).nodes b = some none) ∧
    (∀ t, alookup st.nodes a = some t →
      alookup (add_link st a b bandwidth).nodes a = some t) ∧
    (∀ t, alookup st.nodes b = some t →
      alookup (add_link st a b bandwidth).nodes b = some t) := by
  refine ⟨findEdge_setEdge st.edges a b _, setEdge_length st.edges a b _,
    ?_, ?_, ?_, ?_, ?_, ?_⟩
  · show (alookup (ensureNode (ensureNode st.nodes a) b) a).isSome = true
    cases hx : alookup (ensureNode st.nodes a) a with
    | none =>
      exfalso
      have h3 : (alookup (ensureNode st.nodes a) a).isSome = true := ensureNode_some a
      rw [hx] at h3
      cases h3
    | some t =>
      rw [ensureNode_keeps b hx]
      rfl
  · exact ensureNode_some b
  · intro hnone hba
    show alookup (ensureNode (ensureNode st.nodes a) b) a = some none
    exact ensureNode_keeps b (ensureNode_new hnone)
  · intro hnone
    show alookup (ensureNode (ensureNode st.nodes a) b) b = some none
    cases hx : alookup (ensureNode st.nodes a) b with
    | none => exact ensureNode_new hx
    | some t =>
      -- `b` became present by the first `ensureNode`, so `b = a` and it
      -- was created without attributes
      rw [ensureNode] at hx
      by_cases hc : (st.nodes.map Prod.fst).contains a
      · rw [if_pos hc] at hx
        rw [hnone] at hx
        cases hx
      · rw [if_neg hc] at hx
        rw [alookup_append_right _ hnone] at hx
        have hba : a = b := by
          by_cases hab : a = b
          · exact hab
          · simp [alookup, hab] at hx
        have ht : t = none := by
          rw [← hba] at hx
          simp [alookup] at hx
          exact hx.symm
        have hx2 : alookup (ensureNode st.nodes a) b = some t := by
          rw [ensureNode, if_neg hc, alookup_append_right _ hnone]
          exact hx
        rw [ensureNode_keeps b hx2, ht]
  · intro t h
    exact ensureNode_keeps b (ensureNode_keeps a h)
  · intro t h
    exact ensureNode_keeps b (ensureNode_keeps a h)

/-- Witness for C8 (amended) on a fresh controller. -/
theorem C8_witness :
    (add_link initController "a" "b" 100).edges.length =
      (if (findEdge initController.edges "a" "b").isSome
       then initController.edges.length else initController.edges.length + 1) ∧
    (alookup (add_link initController "a" "b" 100).nodes "a").isSome = true ∧
    (alookup (add_link initController "a" "b" 100).nodes "b").isSome = true ∧
    alookup (add_link initController "a" "b" 100).nodes "a" = some none ∧
    alookup (add_link initController "a" "b" 100).nodes "b" = some none := by
  obtain ⟨_, h2, h3, h4, h5, h6, _, _⟩ := C8_add_link_spec initController "a" "b" 100
  exact ⟨h2, h3, h4, h5 (by rfl) (by decide), h6 (by rfl)⟩

end SDN
